import Mathlib

/-!
# Verification of the Instruments `.trace` import pipeline

A shallow embedding, in Lean 4, of the macOS Instruments trace importer
(the `convertInstrumentsProfile` module): the binary-plist magic check, the
keyed-archive expander, the decimal-number reconstruction, the bulkstore and
integer-uniquer binary readers, the backtrace resolver, and the per-thread
profile-table builder.  Byte buffers are `List Nat` (each element one byte),
JavaScript `Map`s are insertion-ordered association lists, and JS object
identity, where it matters, is made explicit through table indices
(`PValue.ref`) or explicitly threaded state (the import's shared string
table).

Modules the repository imports but whose sources are not part of the
repository snapshot (`BinReader`, `BinaryPlistParser.parseRoot`,
`UniqueStringArray`, `getEmptyThread`, `TextDecoder`) are modelled from the
specification; each such definition carries a doc comment saying so.
-/

namespace Profiler

/-- Little-endian decoding of a byte list: the first byte is least
significant. -/
def leDecode : List Nat → Nat
  | [] => 0
  | b :: bs => b + 256 * leDecode bs

/-- Little-endian encoding of `v` into `k` bytes (the value is taken
modulo `256 ^ k`). -/
def leEncode : Nat → Nat → List Nat
  | 0, _ => []
  | k + 1, v => v % 256 :: leEncode k (v / 256)

theorem leEncode_length (k v : Nat) : (leEncode k v).length = k := by
  induction k generalizing v with
  | zero => rfl
  | succ k ih => simp [leEncode, ih]

theorem leDecode_leEncode (k v : Nat) (h : v < 256 ^ k) :
    leDecode (leEncode k v) = v := by
  induction k generalizing v with
  | zero => simp [pow_zero] at h; simp [leEncode, leDecode, h]
  | succ k ih =>
      have hlt : v / 256 < 256 ^ k := by
        rw [Nat.div_lt_iff_lt_mul (by norm_num)]
        calc v < 256 ^ (k + 1) := h
        _ = 256 ^ k * 256 := by ring
      simp [leEncode, leDecode, ih (v / 256) hlt]
      omega

/-! ## Binary Plist Reader: the magic-header check

Source: `parseBinaryPlist` (the eight-byte comparison loop).  The recursive
decode of the rest of the buffer lives in `BinaryPlistParser.parseRoot`,
a module that is not part of the repository snapshot; the claim under
verification concerns only the header check, embedded here. -/

/-- The ASCII codes of the characters of `'bplist00'`
(`text.charCodeAt(i)` for `i = 0 .. 7` in the source). -/
def bplistMagic : List Nat := [98, 112, 108, 105, 115, 116, 48, 48]

/-- The header-check loop of `parseBinaryPlist`: compare `bytes[i]` with
`text.charCodeAt(i)` for `i = 0 .. 7`; the first mismatch throws
`'File is not a binary plist'`.  Reading past the end of the buffer yields
`undefined` in JS, which never equals the expected character code; here the
out-of-range read is the `none` case of `List.get?`, which likewise never
equals `some` of the expected code. -/
def checkBplistMagic (bytes : List Nat) (i : Nat) : Except String Unit :=
  if h : i < 8 then
    if bytes[i]? = some (bplistMagic.getD i 0) then checkBplistMagic bytes (i + 1)
    else Except.error "File is not a binary plist"
  else Except.ok ()
termination_by 8 - i

/-! ## Decimal-number reconstruction

Source: the `NSDecimalNumberPlaceholder` arm of `patternMatchObjectiveC`.
`new Uint16Array(new Uint8Array(bytes).buffer)` reads the mantissa as
little-endian 16-bit digits; a digit is byte-swapped when the byte-order
flag is not `1`.  An out-of-range digit read (claim inputs never perform
one) is modelled as `0`. -/

/-- The `i`-th 16-bit mantissa digit: `mantissa[i]` of the `Uint16Array`
view (little-endian byte pair), byte-swapped when `byteOrder ≠ 1`. -/
def mantissaDigit (byteOrder : Int) (bytes : List Nat) (i : Nat) : Nat :=
  let lo := bytes.getD (2 * i) 0
  let hi := bytes.getD (2 * i + 1) 0
  if byteOrder ≠ 1 then hi + 256 * lo else lo + 256 * hi

/-- The accumulation loop `decimal += digit * Math.pow(65536, i)` for
`i = 0 .. length - 1`. -/
def decimalLoop (byteOrder : Int) (bytes : List Nat) (length : Nat) (i : Nat)
    (acc : Rat) : Rat :=
  if _h : i < length then
    decimalLoop byteOrder bytes length (i + 1)
      (acc + (mantissaDigit byteOrder bytes i : Rat) * (65536 : Rat) ^ i)
  else acc
termination_by length - i

/-- The `NSDecimalNumberPlaceholder` reconstruction: the digit sum, scaled by
`Math.pow(10, exponent)`, negated when the `NS.negative` flag is set.
Arithmetic is over `ℚ` (the source computes with JS floats; the claim's
relation is the ideal arithmetic one). -/
def decodeDecimalCore (bytes : List Nat) (length : Nat) (exponent : Int)
    (byteOrder : Int) (negative : Bool) : Rat :=
  let decimal := decimalLoop byteOrder bytes length 0 0
  let scaled := decimal * (10 : Rat) ^ exponent
  if negative then -scaled else scaled

/-! ## Primitive plist values and the keyed-archive expander

`PValue` embeds the value universe of the decoded plist: the primitive
scalars, byte buffers (`datav`), ordered sequences (`arr`), string-keyed
dictionaries (`dict`, JS objects with null prototype), JS `Map`s (`mapv`,
as their insertion-ordered entry sequence), the parser's `UID` wrapper
(`uid`), and `ref`, the embedding of a resolved back-reference: the JS walk
replaces a `UID` with the object stored at `$objects[index]`, i.e. with a
pointer into the object table; `ref i` is that pointer made explicit, and
`derefIn` reads through it.  Nested containers of distinct table entries are
distinct trees (cross-references between entries are `uid` nodes). -/

inductive PValue where
  | nullv : PValue
  | boolv : Bool → PValue
  | intv : Int → PValue
  | realv : Rat → PValue
  | strv : String → PValue
  | datav : List Nat → PValue
  | uid : Nat → PValue
  | ref : Nat → PValue
  | arr : List PValue → PValue
  | dict : List (String × PValue) → PValue
  | mapv : List (PValue × PValue) → PValue

mutual
/-- The DAG-reconstruction walk of `expandKeyedArchive` (`const visit = …`):
a `UID` is replaced by the object stored at `$objects[index]` — embedded as
the explicit table pointer `ref index`, without recursing into the target —
and containers are rewritten field by field (the source mutates them in
place, which this returns as the rewritten value).  The walk's termination
on cyclic archives is exactly the totality of this structural recursion:
the source recursion likewise never descends through a substituted
back-reference. -/
def visit : PValue → PValue
  | .uid i => .ref i
  | .arr es => .arr (visitList es)
  | .dict fs => .dict (visitFields fs)
  | .mapv ps => .mapv (visitPairs ps)
  | v => v

def visitList : List PValue → List PValue
  | [] => []
  | v :: vs => visit v :: visitList vs

def visitFields : List (String × PValue) → List (String × PValue)
  | [] => []
  | (k, v) :: fs => (k, visit v) :: visitFields fs

def visitPairs : List (PValue × PValue) → List (PValue × PValue)
  | [] => []
  | (k, v) :: ps => (visit k, visit v) :: visitPairs ps
end

theorem decimalLoop_eq_sum (byteOrder : Int) (bytes : List Nat) (length : Nat) :
    ∀ i acc, decimalLoop byteOrder bytes length i acc =
      acc + ∑ j in Finset.Ico i length, (mantissaDigit byteOrder bytes j : Rat) * 65536 ^ j := by
  suffices H : ∀ k i acc, length ≤ i + k →
      decimalLoop byteOrder bytes length i acc =
        acc + ∑ j in Finset.Ico i length, (mantissaDigit byteOrder bytes j : Rat) * 65536 ^ j by
    intro i acc
    exact H length i acc (by omega)
  intro k
  induction k with
  | zero =>
      intro i acc hk
      rw [decimalLoop, dif_neg (by omega), Finset.Ico_eq_empty (by omega),
        Finset.sum_empty, add_zero]
  | succ k ih =>
      intro i acc hk
      rw [decimalLoop]
      by_cases h : i < length
      · rw [dif_pos h, ih (i + 1) _ (by omega), Finset.sum_eq_sum_Ico_succ_bot h]
        ring
      · rw [dif_neg h, Finset.Ico_eq_empty (by omega), Finset.sum_empty, add_zero]

/-- C7: `NSDecimalNumberPlaceholder` reconstruction computes
`sign * (Σᵢ digitᵢ * 65536^i) * 10^exponent`; each 16-bit mantissa digit is
byte-swapped (`((d & 0xff00) >> 8) | ((d & 0x00ff) << 8)`) exactly when the
byte-order flag is not `1`; and on mantissa `[1]` (the single 16-bit digit
`1`, bytes `[1, 0]`), exponent `0`, length `1`, byte order `1`, the value
decodes to `1` when the negative flag is clear and to its arithmetic
negation `-1` when it is set. -/
theorem c7_decimal_reconstruction :
    (∀ (bytes : List Nat) (len : Nat) (exp : Int) (bo : Int) (neg : Bool),
        decodeDecimalCore bytes len exp bo neg =
          (if neg then (-1 : Rat) else 1) *
            (∑ i in Finset.range len, (mantissaDigit bo bytes i : Rat) * 65536 ^ i) *
            (10 : Rat) ^ exp) ∧
    (∀ (bytes : List Nat) (bo : Int) (i : Nat), (∀ x ∈ bytes, x < 256) → bo ≠ 1 →
        mantissaDigit bo bytes i =
          mantissaDigit 1 bytes i / 256 + mantissaDigit 1 bytes i % 256 * 256) ∧
    decodeDecimalCore [1, 0] 1 0 1 false = 1 ∧
    decodeDecimalCore [1, 0] 1 0 1 true = -1 := by
  refine ⟨?_, ?_, ?_, ?_⟩
  · intro bytes len exp bo neg
    rw [decodeDecimalCore, decimalLoop_eq_sum, zero_add, Finset.range_eq_Ico]
    cases neg <;> simp
  · intro bytes bo i hb hbo
    have hlo : bytes.getD (2 * i) 0 < 256 := by
      rcases h : bytes[2 * i]? with _ | v
      · simp [List.getD, h]
      · have := hb v (List.getElem?_mem h)
        simp [List.getD, h, this]
    have hhi : bytes.getD (2 * i + 1) 0 < 256 := by
      rcases h : bytes[2 * i + 1]? with _ | v
      · simp [List.getD, h]
      · have := hb v (List.getElem?_mem h)
        simp [List.getD, h, this]
    simp only [mantissaDigit]
    rw [if_pos hbo, if_neg (show ¬((1 : Int) ≠ 1) by simp)]
    omega
  · simp only [decodeDecimalCore, decimalLoop_eq_sum, ← Finset.range_eq_Ico]
    norm_num [Finset.sum_range_one, mantissaDigit, List.getD_cons_zero, List.getD_cons_succ]
  · simp only [decodeDecimalCore, decimalLoop_eq_sum, ← Finset.range_eq_Ico]
    norm_num [Finset.sum_range_one, mantissaDigit, List.getD_cons_zero, List.getD_cons_succ]

/-- Witness for C7: the byte-swap conjunct applied to the two-byte mantissa
`[1, 0]` with byte order `0`: the big-endian reading of the digit is `256`. -/
theorem c7_decimal_reconstruction_witness :
    mantissaDigit 0 [1, 0] 0 =
      mantissaDigit 1 [1, 0] 0 / 256 + mantissaDigit 1 [1, 0] 0 % 256 * 256 :=
  c7_decimal_reconstruction.2.1 [1, 0] 0 0 (by decide) (by decide)

theorem checkBplistMagic_error_iff (bytes : List Nat) :
    ∀ k i, 8 ≤ i + k →
      (checkBplistMagic bytes i = Except.error "File is not a binary plist" ↔
        ∃ j, i ≤ j ∧ j < 8 ∧ bytes[j]? ≠ some (bplistMagic.getD j 0)) := by
  intro k
  induction k with
  | zero =>
      intro i hk
      rw [checkBplistMagic, dif_neg (by omega)]
      constructor
      · intro h; simp at h
      · rintro ⟨j, h1, h2, _⟩; omega
  | succ k ih =>
      intro i hk
      by_cases h8 : i < 8
      · rw [checkBplistMagic, dif_pos h8]
        by_cases hm : bytes[i]? = some (bplistMagic.getD i 0)
        · rw [if_pos hm, ih (i + 1) (by omega)]
          constructor
          · rintro ⟨j, h1, h2, h3⟩; exact ⟨j, by omega, h2, h3⟩
          · rintro ⟨j, h1, h2, h3⟩
            refine ⟨j, ?_, h2, h3⟩
            rcases Nat.lt_or_ge i j with h | h
            · omega
            · exfalso
              have hij : i = j := by omega
              exact h3 (hij ▸ hm)
        · rw [if_neg hm]
          exact ⟨fun _ => ⟨i, le_refl i, h8, hm⟩, fun _ => rfl⟩
      · rw [checkBplistMagic, dif_neg h8]
        constructor
        · intro h; simp at h
        · rintro ⟨j, h1, h2, _⟩; omega

theorem checkBplistMagic_ok_or_error (bytes : List Nat) :
    ∀ k i, 8 ≤ i + k →
      checkBplistMagic bytes i = Except.ok () ∨
        checkBplistMagic bytes i = Except.error "File is not a binary plist" := by
  intro k
  induction k with
  | zero =>
      intro i hk
      rw [checkBplistMagic, dif_neg (by omega)]
      exact Or.inl rfl
  | succ k ih =>
      intro i hk
      by_cases h8 : i < 8
      · rw [checkBplistMagic, dif_pos h8]
        by_cases hm : bytes[i]? = some (bplistMagic.getD i 0)
        · rw [if_pos hm]; exact ih (i + 1) (by omega)
        · rw [if_neg hm]; exact Or.inr rfl
      · rw [checkBplistMagic, dif_neg h8]; exact Or.inl rfl

/-- C8: `parseBinaryPlist`'s header check raises the format error (and so
the function returns no value) exactly when some position `i < 8` of the
buffer does not hold the `i`-th byte of the ASCII magic `'bplist00'` —
in particular for every buffer whose first 8 bytes are not exactly that
magic, including buffers shorter than 8 bytes; and a buffer that does begin
with the magic passes the check (it is not rejected). -/
theorem c8_bplist_magic_check (bytes : List Nat) :
    (checkBplistMagic bytes 0 = Except.error "File is not a binary plist" ↔
      ∃ j, j < 8 ∧ bytes[j]? ≠ some (bplistMagic.getD j 0)) ∧
    ((∀ j, j < 8 → bytes[j]? = some (bplistMagic.getD j 0)) →
      checkBplistMagic bytes 0 = Except.ok ()) := by
  have hiff := checkBplistMagic_error_iff bytes 8 0 (by omega)
  constructor
  · rw [hiff]
    constructor
    · rintro ⟨j, _, h2, h3⟩; exact ⟨j, h2, h3⟩
    · rintro ⟨j, h2, h3⟩; exact ⟨j, Nat.zero_le j, h2, h3⟩
  · intro hall
    rcases checkBplistMagic_ok_or_error bytes 8 0 (by omega) with h | h
    · exact h
    · exfalso
      obtain ⟨j, _, h2, h3⟩ := hiff.mp h
      exact h3 (hall j h2)

/-- Witness for C8: the buffer `[98, 112, 108, 105, 115, 116, 48, 48]`
(exactly `'bplist00'`) passes the check, and the buffer `[0]` is rejected
with the format error. -/
theorem c8_bplist_magic_check_witness :
    checkBplistMagic [98, 112, 108, 105, 115, 116, 48, 48] 0 = Except.ok () ∧
    checkBplistMagic [0] 0 = Except.error "File is not a binary plist" := by
  constructor
  · exact (c8_bplist_magic_check [98, 112, 108, 105, 115, 116, 48, 48]).2 (by decide)
  · exact (c8_bplist_magic_check [0]).1.mpr ⟨0, by omega, by decide⟩

/-! ## Binary-store readers -/

/-- Modelled from the spec: `BinReader` (imported from `./BinReader`, a
module that is not part of the repository snapshot): a byte buffer with a
current offset, `seek`/`skip` positioning, `hasMore`, and fixed-width
little-endian integer reads (`readUint32`, `readUint48`, `readUint64` —
"read a 32-bit element count, then that many 64-bit little-endian
integers").  The offset is an `Int` because `skip` can be called with a
negative distance (`bytesPerEntry - 6 - 4 - 4` in the source); a read
outside the buffer fails (`none`), where the source throws. -/
structure BinReader where
  bytes : List Nat
  off : Int
deriving Repr

def brSeek (r : BinReader) (n : Nat) : BinReader := { r with off := n }

def brSkip (r : BinReader) (d : Int) : BinReader := { r with off := r.off + d }

def brHasMore (r : BinReader) : Bool := r.off < (r.bytes.length : Int)

/-- Read `n` bytes at the current offset as a little-endian integer and
advance. -/
def brRead (r : BinReader) (n : Nat) : Option (Nat × BinReader) :=
  if 0 ≤ r.off ∧ r.off.toNat + n ≤ r.bytes.length then
    some (leDecode ((r.bytes.drop r.off.toNat).take n), { r with off := r.off + n })
  else none

/-- A raw bulkstore sample record: `{ timestamp, threadID, backtraceID }`. -/
structure RawSample where
  timestamp : Nat
  threadID : Nat
  backtraceID : Nat
deriving DecidableEq, Repr

/-- The record loop of `getRawSampleList`: read a 6-byte (48-bit) timestamp
— a zero timestamp is the sentinel that ends the loop — then the 4-byte
thread id immediately after it, skip `bytesPerEntry - 6 - 4 - 4` bytes, and
read the 4-byte backtrace id occupying the record's last 4 bytes.  `fuel`
bounds the iteration count (the source loop is `while (true)`); every
theorem below exhibits a `some` result, showing the fuel is not the
binding constraint. -/
def readSamplesLoop (stride : Nat) : Nat → BinReader → List RawSample → Option (List RawSample)
  | 0, _, _ => none
  | fuel + 1, r, acc =>
    (brRead r 6).bind fun (timestamp, r) =>
    if timestamp = 0 then some acc
    else
      (brRead r 4).bind fun (threadID, r) =>
      let r := brSkip r ((stride : Int) - 6 - 4 - 4)
      (brRead r 4).bind fun (backtraceID, r) =>
      readSamplesLoop stride fuel r (acc ++ [⟨timestamp, threadID, backtraceID⟩])

/-- The byte-level part of `getRawSampleList` applied to the `bulkstore`
buffer: ignore the first 3 words, read the 4-byte header size and the
4-byte per-entry byte stride, seek to the header size, then read
fixed-stride records until the zero-timestamp sentinel.  (Locating the
store directory whose `schema.xml` matches `name="time-profile"` happens
before this buffer is obtained and is not part of the claim.) -/
def getRawSampleListCore (bytes : List Nat) : Option (List RawSample) :=
  let r := BinReader.mk bytes 0
  (brRead r 4).bind fun (_, r) =>
  (brRead r 4).bind fun (_, r) =>
  (brRead r 4).bind fun (_, r) =>
  (brRead r 4).bind fun (headerSize, r) =>
  (brRead r 4).bind fun (bytesPerEntry, r) =>
  readSamplesLoop bytesPerEntry (bytes.length + 1) (brSeek r headerSize) []

/-- The bulkstore reading as claim C4 words it, for comparison with the
source: "after a fixed 4-word ignored preamble, reads a 4-byte header-size
field and a 4-byte per-entry byte-stride field", then seeks to the header
size and reads records as above.  The source ignores only THREE words
(`// Ignore the first 3 words`), so this differs from
`getRawSampleListCore` by one 4-byte read. -/
def getRawSampleListFourWordPreamble (bytes : List Nat) : Option (List RawSample) :=
  let r := BinReader.mk bytes 0
  (brRead r 4).bind fun (_, r) =>
  (brRead r 4).bind fun (_, r) =>
  (brRead r 4).bind fun (_, r) =>
  (brRead r 4).bind fun (_, r) =>
  (brRead r 4).bind fun (headerSize, r) =>
  (brRead r 4).bind fun (bytesPerEntry, r) =>
  readSamplesLoop bytesPerEntry (bytes.length + 1) (brSeek r headerSize) []

/-- The element loop of `getIntegerArrays`: `while (length--)
array.push(datareader.readUint64())`. -/
def readUint64List : Nat → BinReader → List Nat → Option (List Nat × BinReader)
  | 0, r, acc => some (acc, r)
  | n + 1, r, acc => (brRead r 8).bind fun (v, r) => readUint64List n r (acc ++ [v])

/-- The index loop of `getIntegerArrays`: while the index reader has more
bytes, read a `(low 32 bits, high-megabyte-count 32 bits)` pair forming the
byte offset `low + high * 1024 * 1024` into the data file; skip a zero
offset (the header sentinel); otherwise seek the data reader there, read a
4-byte element count and that many 64-bit integers, and append the array.
`fuel` bounds the iteration count (each iteration consumes 8 index bytes,
so `indexBytes.length + 1` always suffices). -/
def getIntegerArraysLoop : Nat → BinReader → BinReader → List (List Nat) →
    Option (List (List Nat))
  | 0, _, _, _ => none
  | fuel + 1, indexreader, datareader, arrays =>
    if brHasMore indexreader then
      (brRead indexreader 4).bind fun (lo, indexreader) =>
      (brRead indexreader 4).bind fun (hi, indexreader) =>
      let byteOffset := lo + hi * (1024 * 1024)
      if byteOffset = 0 then getIntegerArraysLoop fuel indexreader datareader arrays
      else
        let datareader := brSeek datareader byteOffset
        (brRead datareader 4).bind fun (length, datareader) =>
        (readUint64List length datareader []).bind fun (array, datareader) =>
        getIntegerArraysLoop fuel indexreader datareader (arrays ++ [array])
    else some arrays

/-- `getIntegerArrays` on the two files `integeruniquer.index` and
`integeruniquer.data`: seek the index reader past the 32-byte header, then
run the index loop. -/
def getIntegerArrays (indexBytes dataBytes : List Nat) : Option (List (List Nat)) :=
  getIntegerArraysLoop (indexBytes.length + 1)
    (brSeek (BinReader.mk indexBytes 0) 32) (BinReader.mk dataBytes 0) []

theorem brRead_at (bytes pre post : List Nat) (off : Int) (k v : Nat)
    (hb : bytes = pre ++ (leEncode k v ++ post)) (ho : off = (pre.length : Int))
    (hv : v < 256 ^ k) :
    brRead ⟨bytes, off⟩ k = some (v, ⟨bytes, off + k⟩) := by
  subst hb; subst ho
  rw [brRead, if_pos]
  · have hdrop : ((pre ++ (leEncode k v ++ post)).drop
        ((pre.length : Int)).toNat) = leEncode k v ++ post := by
      simp
    rw [hdrop, List.take_left' (leEncode_length k v), leDecode_leEncode k v hv]
  · constructor
    · positivity
    · simp [leEncode_length]

theorem brRead_ignore (bytes : List Nat) (off : Int) (n : Nat)
    (h0 : 0 ≤ off) (hn : off.toNat + n ≤ bytes.length) :
    brRead ⟨bytes, off⟩ n =
      some (leDecode ((bytes.drop off.toNat).take n), ⟨bytes, off + n⟩) := by
  rw [brRead, if_pos ⟨h0, hn⟩]

/-- A bulkstore record as laid out in the buffer: the 6-byte timestamp, the
4-byte thread id immediately after it, `mid` (the skipped
`bytesPerEntry - 14` bytes), and the 4-byte backtrace id as the record's
last 4 bytes. -/
def recEncode (t tid bt : Nat) (mid : List Nat) : List Nat :=
  leEncode 6 t ++ leEncode 4 tid ++ mid ++ leEncode 4 bt

theorem recEncode_length (t tid bt : Nat) (mid : List Nat) :
    (recEncode t tid bt mid).length = 14 + mid.length := by
  simp [recEncode, leEncode_length]; omega

theorem readSamplesLoop_record (S fuel : Nat) (bytes pre mid post : List Nat)
    (t tid bt : Nat) (acc : List RawSample)
    (hb : bytes = pre ++ (recEncode t tid bt mid ++ post))
    (hS : 14 ≤ S) (hmid : mid.length = S - 14)
    (ht : t < 2 ^ 48) (htz : t ≠ 0) (htid : tid < 2 ^ 32) (hbt : bt < 2 ^ 32) :
    readSamplesLoop S (fuel + 1) ⟨bytes, (pre.length : Int)⟩ acc =
      readSamplesLoop S fuel ⟨bytes, ((pre.length + S : Nat) : Int)⟩
        (acc ++ [⟨t, tid, bt⟩]) := by
  rw [readSamplesLoop]
  rw [brRead_at bytes pre (leEncode 4 tid ++ mid ++ leEncode 4 bt ++ post) _ 6 t
      (by simp [recEncode, hb, List.append_assoc]) rfl (by exact_mod_cast ht)]
  simp only [Option.bind_eq_bind, Option.some_bind, if_neg htz]
  rw [brRead_at bytes (pre ++ leEncode 6 t) (mid ++ leEncode 4 bt ++ post) _ 4 tid
      (by simp [recEncode, hb, List.append_assoc])
      (by simp [leEncode_length]) (by exact_mod_cast htid)]
  simp only [Option.bind_eq_bind, Option.some_bind]
  simp only [brSkip]
  rw [show (pre.length : Int) + ((6 : Nat) : Int) + ((4 : Nat) : Int) +
        ((S : Int) - 6 - 4 - 4) =
      ((pre ++ leEncode 6 t ++ leEncode 4 tid ++ mid).length : Int) from by
    simp [leEncode_length, hmid]
    omega]
  rw [brRead_at bytes (pre ++ leEncode 6 t ++ leEncode 4 tid ++ mid) post _ 4 bt
      (by simp [recEncode, hb, List.append_assoc]) rfl (by exact_mod_cast hbt)]
  simp only [Option.bind_eq_bind, Option.some_bind]
  rw [show ((pre ++ leEncode 6 t ++ leEncode 4 tid ++ mid).length : Int) +
        ((4 : Nat) : Int) = ((pre.length + S : Nat) : Int) from by
    simp [leEncode_length, hmid]
    omega]

theorem readSamplesLoop_sentinel (S fuel : Nat) (bytes pre post : List Nat)
    (acc : List RawSample) (hb : bytes = pre ++ (leEncode 6 0 ++ post)) :
    readSamplesLoop S (fuel + 1) ⟨bytes, (pre.length : Int)⟩ acc = some acc := by
  rw [readSamplesLoop]
  rw [brRead_at bytes pre post _ 6 0 hb rfl (by norm_num)]
  simp

theorem getRawSampleListCore_eq (bytes pre pad rest : List Nat) (H S : Nat)
    (hb : bytes = pre ++ (leEncode 4 H ++ (leEncode 4 S ++ (pad ++ rest))))
    (hpre : pre.length = 12) (hH : H = 20 + pad.length)
    (hH32 : H < 2 ^ 32) (hS32 : S < 2 ^ 32) :
    getRawSampleListCore bytes =
      readSamplesLoop S (bytes.length + 1) ⟨bytes, (H : Int)⟩ [] := by
  have hlen : 12 ≤ bytes.length := by
    subst hb; simp [leEncode_length]; omega
  rw [getRawSampleListCore]
  rw [brRead_ignore bytes 0 4 (by norm_num) (by simpa using by omega)]
  simp only [Option.bind_eq_bind, Option.some_bind]
  rw [brRead_ignore bytes (0 + ((4 : Nat) : Int)) 4 (by norm_num) (by simpa using by omega)]
  simp only [Option.bind_eq_bind, Option.some_bind]
  rw [brRead_ignore bytes (0 + ((4 : Nat) : Int) + ((4 : Nat) : Int)) 4 (by norm_num)
      (by simpa using by omega)]
  simp only [Option.bind_eq_bind, Option.some_bind]
  rw [brRead_at bytes pre (leEncode 4 S ++ (pad ++ rest))
      (0 + ((4 : Nat) : Int) + ((4 : Nat) : Int) + ((4 : Nat) : Int)) 4 H hb
      (by rw [hpre]; norm_num) (by norm_num at hH32 ⊢; omega)]
  simp only [Option.bind_eq_bind, Option.some_bind]
  rw [brRead_at bytes (pre ++ leEncode 4 H) (pad ++ rest)
      (0 + ((4 : Nat) : Int) + ((4 : Nat) : Int) + ((4 : Nat) : Int) + ((4 : Nat) : Int)) 4 S
      (by simp [hb, List.append_assoc]) (by simp [leEncode_length, hpre])
      (by norm_num at hS32 ⊢; omega)]
  simp only [Option.bind_eq_bind, Option.some_bind, brSeek]

/-- C4 (amended): the bulkstore sample reader ignores a fixed THREE-word
preamble, then reads the 4-byte header-size field and the 4-byte per-entry
byte-stride field, seeks to the header size, and reads fixed-stride records
until a zero-timestamp sentinel, each record yielding a 48-bit timestamp,
the 32-bit thread id immediately after it, and the 32-bit backtrace id in
the record's last 4 bytes: a synthetic bulkstore buffer with header size
`H`, stride `S`, and two records followed by the sentinel yields exactly
the two expected (timestamp, threadID, backtraceID) triples. -/
theorem c4_bulkstore_reader_amended (pre pad mid1 mid2 : List Nat)
    (H S t1 tid1 bt1 t2 tid2 bt2 : Nat)
    (hpre : pre.length = 12) (hH : H = 20 + pad.length) (hH32 : H < 2 ^ 32)
    (hS32 : S < 2 ^ 32) (hS : 14 ≤ S)
    (hm1 : mid1.length = S - 14) (hm2 : mid2.length = S - 14)
    (ht1 : t1 < 2 ^ 48) (ht1z : t1 ≠ 0) (htid1 : tid1 < 2 ^ 32) (hbt1 : bt1 < 2 ^ 32)
    (ht2 : t2 < 2 ^ 48) (ht2z : t2 ≠ 0) (htid2 : tid2 < 2 ^ 32) (hbt2 : bt2 < 2 ^ 32) :
    getRawSampleListCore
        (pre ++ leEncode 4 H ++ leEncode 4 S ++ pad ++
          recEncode t1 tid1 bt1 mid1 ++ recEncode t2 tid2 bt2 mid2 ++ leEncode 6 0) =
      some [⟨t1, tid1, bt1⟩, ⟨t2, tid2, bt2⟩] := by
  set B := pre ++ leEncode 4 H ++ leEncode 4 S ++ pad ++
    recEncode t1 tid1 bt1 mid1 ++ recEncode t2 tid2 bt2 mid2 ++ leEncode 6 0 with hB
  have hBlen : B.length = H + 2 * S + 6 := by
    simp [hB, recEncode_length, leEncode_length, hpre, hm1, hm2]
    omega
  rw [getRawSampleListCore_eq B pre pad
      (recEncode t1 tid1 bt1 mid1 ++ (recEncode t2 tid2 bt2 mid2 ++ leEncode 6 0)) H S
      (by simp [hB, List.append_assoc]) hpre hH hH32 hS32]
  obtain ⟨f, hf⟩ : ∃ f, B.length + 1 = f + 1 + 1 + 1 := ⟨B.length - 2, by omega⟩
  rw [hf]
  have hpre3 : ((pre ++ leEncode 4 H ++ leEncode 4 S ++ pad).length : Nat) = H := by
    simp [leEncode_length, hpre]; omega
  rw [show ((H : Nat) : Int) = (((pre ++ leEncode 4 H ++ leEncode 4 S ++ pad).length : Nat) : Int) from by
    rw [hpre3]]
  rw [readSamplesLoop_record S (f + 1 + 1) B (pre ++ leEncode 4 H ++ leEncode 4 S ++ pad)
      mid1 (recEncode t2 tid2 bt2 mid2 ++ leEncode 6 0) t1 tid1 bt1 []
      (by simp [hB, List.append_assoc]) hS hm1 ht1 ht1z htid1 hbt1]
  simp only [List.nil_append]
  have hpre4 : ((pre ++ leEncode 4 H ++ leEncode 4 S ++ pad).length + S : Nat) =
      ((pre ++ leEncode 4 H ++ leEncode 4 S ++ pad ++ recEncode t1 tid1 bt1 mid1).length) := by
    simp [recEncode_length, hm1]; omega
  rw [show ((((pre ++ leEncode 4 H ++ leEncode 4 S ++ pad).length + S : Nat)) : Int) =
      (((pre ++ leEncode 4 H ++ leEncode 4 S ++ pad ++ recEncode t1 tid1 bt1 mid1).length : Nat) : Int) from by
    rw [hpre4]]
  rw [readSamplesLoop_record S (f + 1) B
      (pre ++ leEncode 4 H ++ leEncode 4 S ++ pad ++ recEncode t1 tid1 bt1 mid1)
      mid2 (leEncode 6 0) t2 tid2 bt2 [⟨t1, tid1, bt1⟩]
      (by simp [hB, List.append_assoc]) hS hm2 ht2 ht2z htid2 hbt2]
  simp only [List.singleton_append]
  have hpre5 : ((pre ++ leEncode 4 H ++ leEncode 4 S ++ pad ++ recEncode t1 tid1 bt1 mid1).length + S : Nat) =
      ((pre ++ leEncode 4 H ++ leEncode 4 S ++ pad ++ recEncode t1 tid1 bt1 mid1 ++ recEncode t2 tid2 bt2 mid2).length) := by
    simp [recEncode_length, hm2]; omega
  rw [show ((((pre ++ leEncode 4 H ++ leEncode 4 S ++ pad ++ recEncode t1 tid1 bt1 mid1).length + S : Nat)) : Int) =
      (((pre ++ leEncode 4 H ++ leEncode 4 S ++ pad ++ recEncode t1 tid1 bt1 mid1 ++ recEncode t2 tid2 bt2 mid2).length : Nat) : Int) from by
    rw [hpre5]]
  rw [readSamplesLoop_sentinel S f B
      (pre ++ leEncode 4 H ++ leEncode 4 S ++ pad ++ recEncode t1 tid1 bt1 mid1 ++ recEncode t2 tid2 bt2 mid2)
      [] [⟨t1, tid1, bt1⟩, ⟨t2, tid2, bt2⟩]
      (by simp [hB, List.append_assoc])]

/-- Witness for C4 (amended): a concrete 48-byte bulkstore buffer with
header size 20, stride 14, and records `(1, 2, 3)` and `(4, 5, 6)`. -/
theorem c4_bulkstore_reader_amended_witness :
    getRawSampleListCore
        (List.replicate 12 0 ++ leEncode 4 20 ++ leEncode 4 14 ++ [] ++
          recEncode 1 2 3 [] ++ recEncode 4 5 6 [] ++ leEncode 6 0) =
      some [⟨1, 2, 3⟩, ⟨4, 5, 6⟩] :=
  c4_bulkstore_reader_amended (List.replicate 12 0) [] [] [] 20 14 1 2 3 4 5 6
    (by decide) (by decide) (by norm_num) (by norm_num) (by decide) (by decide)
    (by decide) (by norm_num) (by decide) (by norm_num) (by norm_num)
    (by norm_num) (by decide) (by norm_num) (by norm_num)

/-- The concrete bulkstore buffer on which the claimed 4-word-preamble
reading and the source's 3-word-preamble reading disagree: words 0–2 are
zero, word 3 is 32 (the header size the source reads at byte offset 12),
word 4 is 14 (the stride the source reads at offset 16; the claimed reading
takes it as the header size), word 5 is 14, eight filler bytes, one record
`(timestamp 1, threadID 7, backtraceID 9)` at offset 32, and the
zero-timestamp sentinel. -/
def c4Buffer : List Nat :=
  List.replicate 12 0 ++ leEncode 4 32 ++ leEncode 4 14 ++ leEncode 4 14 ++
    List.replicate 8 0 ++ recEncode 1 7 9 [] ++ leEncode 6 0

/-- Counterexample to C4 as stated: the source reads the header-size field
after a THREE-word ignored preamble (`// Ignore the first 3 words`), not a
four-word one.  On `c4Buffer` the source parses exactly one sample,
`(1, 7, 9)`, while the claimed 4-word-preamble reading mis-seeks, walks
off the end of the buffer and fails — the two readings disagree. -/
theorem c4_bulkstore_preamble_counterexample :
    getRawSampleListCore c4Buffer = some [⟨1, 7, 9⟩] ∧
    getRawSampleListFourWordPreamble c4Buffer = none ∧
    getRawSampleListFourWordPreamble c4Buffer ≠ getRawSampleListCore c4Buffer := by
  refine ⟨by decide, by decide, by decide⟩

theorem readUint64List_spec (dataBytes : List Nat) :
    ∀ (arr : List Nat) (pre post : List Nat) (acc : List Nat),
      dataBytes = pre ++ (arr.flatMap (leEncode 8) ++ post) →
      (∀ x ∈ arr, x < 2 ^ 64) →
      readUint64List arr.length ⟨dataBytes, (pre.length : Int)⟩ acc =
        some (acc ++ arr, ⟨dataBytes, ((pre.length + 8 * arr.length : Nat) : Int)⟩) := by
  intro arr
  induction arr with
  | nil =>
      intro pre post acc _ _
      simp [readUint64List]
  | cons a arr ih =>
      intro pre post acc hb helts
      rw [List.length_cons, readUint64List]
      rw [brRead_at dataBytes pre (arr.flatMap (leEncode 8) ++ post) _ 8 a
          (by simp [hb, List.append_assoc, List.flatMap_cons]) rfl
          (by have := helts a (by simp); norm_num at this ⊢; omega)]
      simp only [Option.bind_eq_bind, Option.some_bind]
      rw [show ((pre.length : Int) + ((8 : Nat) : Int)) =
          (((pre ++ leEncode 8 a).length : Nat) : Int) from by
        simp [leEncode_length]]
      rw [ih (pre ++ leEncode 8 a) post (acc ++ [a])
          (by simp [hb, List.append_assoc, List.flatMap_cons])
          (fun x hx => helts x (by simp [hx]))]
      congr 2
      · simp
      · simp [leEncode_length]
        omega

/-- The per-entry byte length of the index file body. -/
theorem indexBind_length (entries : List (Nat × Nat × List Nat)) :
    (entries.flatMap (fun e => leEncode 4 e.1 ++ leEncode 4 e.2.1)).length =
      8 * entries.length := by
  induction entries with
  | nil => simp
  | cons e es ih => simp [List.flatMap_cons, leEncode_length, ih]; omega

theorem getIntegerArraysLoop_spec (dataBytes : List Nat) :
    ∀ (entries : List (Nat × Nat × List Nat)) (consumed indexBytes : List Nat)
      (dOff : Int) (acc : List (List Nat)) (fuel : Nat),
      indexBytes = consumed ++ entries.flatMap (fun e => leEncode 4 e.1 ++ leEncode 4 e.2.1) →
      entries.length < fuel →
      (∀ e ∈ entries, e.1 < 2 ^ 32 ∧ e.2.1 < 2 ^ 32 ∧
        (e.1 + e.2.1 * (1024 * 1024) ≠ 0 →
          ∃ rest, dataBytes.drop (e.1 + e.2.1 * (1024 * 1024)) =
              leEncode 4 e.2.2.length ++ (e.2.2.flatMap (leEncode 8) ++ rest) ∧
            e.2.2.length < 2 ^ 32 ∧ ∀ x ∈ e.2.2, x < 2 ^ 64)) →
      getIntegerArraysLoop fuel ⟨indexBytes, (consumed.length : Int)⟩ ⟨dataBytes, dOff⟩ acc =
        some (acc ++ (entries.filter
            (fun e => e.1 + e.2.1 * (1024 * 1024) ≠ 0)).map (fun e => e.2.2)) := by
  intro entries
  induction entries with
  | nil =>
      intro consumed indexBytes dOff acc fuel hb hfuel _
      obtain ⟨f, rfl⟩ : ∃ f, fuel = f + 1 := ⟨fuel - 1, by omega⟩
      rw [getIntegerArraysLoop]
      rw [if_neg (show ¬ brHasMore ⟨indexBytes, (consumed.length : Int)⟩ = true from by
        simp [brHasMore, hb])]
      simp
  | cons e es ih =>
      intro consumed indexBytes dOff acc fuel hb hfuel hents
      obtain ⟨f, rfl⟩ : ∃ f, fuel = f + 1 := ⟨fuel - 1, by omega⟩
      obtain ⟨he1, he2, hedata⟩ := hents e (by simp)
      rw [getIntegerArraysLoop]
      rw [if_pos (show brHasMore ⟨indexBytes, (consumed.length : Int)⟩ = true from by
        have hlen : indexBytes.length = consumed.length + 8 * (e :: es).length := by
          rw [hb, List.length_append, indexBind_length]
        simp only [brHasMore, decide_eq_true_eq, hlen, List.length_cons]
        push_cast
        omega)]
      rw [brRead_at indexBytes consumed
          (leEncode 4 e.2.1 ++ (es.flatMap (fun e => leEncode 4 e.1 ++ leEncode 4 e.2.1)))
          _ 4 e.1 (by simp [hb, List.flatMap_cons, List.append_assoc])
          rfl (by norm_num at he1 ⊢; omega)]
      simp only [Option.bind_eq_bind, Option.some_bind]
      rw [show ((consumed.length : Int) + ((4 : Nat) : Int)) =
          (((consumed ++ leEncode 4 e.1).length : Nat) : Int) from by
        simp [leEncode_length]]
      rw [brRead_at indexBytes (consumed ++ leEncode 4 e.1)
          (es.flatMap (fun e => leEncode 4 e.1 ++ leEncode 4 e.2.1))
          _ 4 e.2.1 (by simp [hb, List.flatMap_cons, List.append_assoc])
          rfl (by norm_num at he2 ⊢; omega)]
      simp only [Option.bind_eq_bind, Option.some_bind]
      by_cases hz : e.1 + e.2.1 * (1024 * 1024) = 0
      · rw [if_pos hz]
        rw [show (((consumed ++ leEncode 4 e.1).length : Int) + ((4 : Nat) : Int)) =
            (((consumed ++ leEncode 4 e.1 ++ leEncode 4 e.2.1).length : Nat) : Int) from by
          simp [leEncode_length]
          omega]
        rw [ih (consumed ++ leEncode 4 e.1 ++ leEncode 4 e.2.1) indexBytes dOff acc f
            (by simp [hb, List.flatMap_cons, List.append_assoc]) (by simp at hfuel; omega)
            (fun x hx => hents x (by simp [hx]))]
        congr 2
        rw [List.filter_cons_of_neg (by simpa using hz)]
      · rw [if_neg hz]
        obtain ⟨restD, hdrop, hlen32, helts⟩ := hedata hz
        have hoffle : e.1 + e.2.1 * (1024 * 1024) < dataBytes.length := by
          by_contra hcon
          rw [List.drop_eq_nil_of_le (by omega)] at hdrop
          have hlen := congrArg List.length hdrop
          rw [List.length_nil, List.length_append, leEncode_length] at hlen
          omega
        have htake : (dataBytes.take (e.1 + e.2.1 * (1024 * 1024))).length =
            e.1 + e.2.1 * (1024 * 1024) := by
          simp [List.length_take]
          omega
        rw [show brSeek ⟨dataBytes, dOff⟩ (e.1 + e.2.1 * (1024 * 1024)) =
            ⟨dataBytes, (((dataBytes.take (e.1 + e.2.1 * (1024 * 1024))).length : Nat) : Int)⟩ from by
          simp [brSeek, htake]]
        rw [brRead_at dataBytes (dataBytes.take (e.1 + e.2.1 * (1024 * 1024)))
            (e.2.2.flatMap (leEncode 8) ++ restD) _ 4 e.2.2.length
            (by conv_lhs => rw [← List.take_append_drop (e.1 + e.2.1 * (1024 * 1024)) dataBytes]
                rw [hdrop])
            rfl (by norm_num at hlen32 ⊢; omega)]
        simp only [Option.bind_eq_bind, Option.some_bind]
        rw [show (((dataBytes.take (e.1 + e.2.1 * (1024 * 1024))).length : Int) + ((4 : Nat) : Int)) =
            (((dataBytes.take (e.1 + e.2.1 * (1024 * 1024)) ++ leEncode 4 e.2.2.length).length : Nat) : Int) from by
          simp [leEncode_length]]
        rw [readUint64List_spec dataBytes e.2.2
            (dataBytes.take (e.1 + e.2.1 * (1024 * 1024)) ++ leEncode 4 e.2.2.length) restD []
            (by conv_lhs => rw [← List.take_append_drop (e.1 + e.2.1 * (1024 * 1024)) dataBytes]
                rw [hdrop]
                simp [List.append_assoc])
            helts]
        simp only [Option.bind_eq_bind, Option.some_bind, List.nil_append]
        rw [show (((consumed ++ leEncode 4 e.1).length : Int) + ((4 : Nat) : Int)) =
            (((consumed ++ leEncode 4 e.1 ++ leEncode 4 e.2.1).length : Nat) : Int) from by
          simp [leEncode_length]
          omega]
        rw [ih (consumed ++ leEncode 4 e.1 ++ leEncode 4 e.2.1) indexBytes _ (acc ++ [e.2.2]) f
            (by simp [hb, List.flatMap_cons, List.append_assoc]) (by simp at hfuel; omega)
            (fun x hx => hents x (by simp [hx]))]
        rw [List.filter_cons_of_pos (by simp only [decide_eq_true_eq]; exact hz)]
        simp

/-- C5: `getIntegerArrays` reads `integeruniquer.index` as a 32-byte header
followed by pairs of 32-bit words forming the byte offset
`low + high * 1048576` into `integeruniquer.data`, skips every pair whose
offset is zero, and for each non-zero offset seeks the data file there,
reads a 32-bit element count and then exactly that many 64-bit
little-endian integers — producing one array of frame addresses per
non-zero index entry, in index order. -/
theorem c5_get_integer_arrays (hdr dataBytes : List Nat)
    (entries : List (Nat × Nat × List Nat)) (hhdr : hdr.length = 32)
    (hents : ∀ e ∈ entries, e.1 < 2 ^ 32 ∧ e.2.1 < 2 ^ 32 ∧
      (e.1 + e.2.1 * (1024 * 1024) ≠ 0 →
        ∃ rest, dataBytes.drop (e.1 + e.2.1 * (1024 * 1024)) =
            leEncode 4 e.2.2.length ++ (e.2.2.flatMap (leEncode 8) ++ rest) ∧
          e.2.2.length < 2 ^ 32 ∧ ∀ x ∈ e.2.2, x < 2 ^ 64)) :
    getIntegerArrays (hdr ++ entries.flatMap (fun e => leEncode 4 e.1 ++ leEncode 4 e.2.1))
        dataBytes =
      some ((entries.filter
          (fun e => e.1 + e.2.1 * (1024 * 1024) ≠ 0)).map (fun e => e.2.2)) := by
  rw [getIntegerArrays]
  rw [show brSeek
      (BinReader.mk (hdr ++ entries.flatMap (fun e => leEncode 4 e.1 ++ leEncode 4 e.2.1)) 0) 32 =
      ⟨hdr ++ entries.flatMap (fun e => leEncode 4 e.1 ++ leEncode 4 e.2.1),
        ((hdr.length : Nat) : Int)⟩ from by
    simp [brSeek, hhdr]]
  rw [getIntegerArraysLoop_spec dataBytes entries hdr _ 0 [] _
      rfl (by rw [List.length_append, indexBind_length, hhdr]; omega) hents]
  simp

/-- Witness for C5: a concrete index file with a zero sentinel pair and one
entry at data-file offset 36 holding the single-element array `[258]`. -/
theorem c5_get_integer_arrays_witness :
    getIntegerArrays
        (List.replicate 32 0 ++
          ([(0, 0, ([] : List Nat)), (36, 0, [258])].flatMap
            (fun e => leEncode 4 e.1 ++ leEncode 4 e.2.1)))
        (List.replicate 36 0 ++ leEncode 4 1 ++ leEncode 8 258) =
      some [[258]] := by
  rw [c5_get_integer_arrays (List.replicate 32 0)
      (List.replicate 36 0 ++ leEncode 4 1 ++ leEncode 8 258)
      [(0, 0, ([] : List Nat)), (36, 0, [258])] (by decide)
      (by
        intro e he
        rcases List.mem_cons.mp he with rfl | he2
        · exact ⟨by norm_num, by norm_num, fun h => absurd (by norm_num) h⟩
        · rcases List.mem_cons.mp he2 with rfl | h3
          · refine ⟨by norm_num, by norm_num, fun _ => ⟨[], by decide, by norm_num, ?_⟩⟩
            intro x hx
            rcases List.mem_singleton.mp hx with rfl
            norm_num
          · exact absurd h3 (List.not_mem_nil e))]
  rfl

/-! ## Backtrace resolution (`importRunFromInstrumentsTrace`) -/

/-- `zeroPad(s, width)`: prepend `'0'` up to `width` characters
(`new Array(Math.max(width - s.length, 0) + 1).join('0') + s`). -/
def zeroPad (s : String) (width : Nat) : String :=
  String.mk (List.replicate (width - s.length) '0') ++ s

/-- `k.toString(16)`: the lowercase hexadecimal rendering of a natural
number (`Nat.toDigits` produces `0`–`9`, `a`–`f`). -/
def hexString (k : Nat) : String :=
  String.mk (Nat.toDigits 16 k)

/-- A frame-info record: `{ key, name, file? }`.  The source stores the
raw numeric address as the `key` of a synthetic frame; JS `Map`s keep
number and string keys apart, and symbol keys always contain `':'` while
a rendered number never does, so the decimal rendering `toString k` keeps
them apart here too. -/
structure FrameInfo where
  key : String
  name : String
  file : Option String
deriving DecidableEq, Repr

/-- The synthetic raw-address frame created for an id that is neither a
known frame address nor a valid array index:
`{ key: k, name: '0x' + zeroPad(k.toString(16), 16) }`. -/
def rawAddressFrame (k : Nat) : FrameInfo :=
  { key := toString k, name := "0x" ++ zeroPad (hexString k) 16, file := none }

/-- `appendRecursive(k, stack)` of `importRunFromInstrumentsTrace`,
threading the mutated `stack` and `addressToFrameMap` explicitly: a known
frame address is pushed and terminates the branch; a valid index into
`arrays` (`k in arrays` on a dense JS array) is expanded by resolving each
element in order (the sequential `for (const addr of arrays[k])` loop is
the `foldlM` over `Option`); anything else becomes a synthetic raw-address
frame, registered into the map, and is pushed.  `fuel` bounds the recursion
depth (the source recursion is unguarded); every theorem below exhibits a
`some` result. -/
def appendRecursive (arrays : List (List Nat)) :
    Nat → Nat → List Nat × List (Nat × FrameInfo) →
      Option (List Nat × List (Nat × FrameInfo))
  | 0, _, _ => none
  | fuel + 1, k, (stack, fm) =>
    if (fm.lookup k).isSome then some (stack ++ [k], fm)
    else if k < arrays.length then
      (arrays.getD k []).foldlM (fun st addr => appendRecursive arrays fuel addr st)
        (stack, fm)
    else
      some (stack ++ [k], fm ++ [(k, rawAddressFrame k)])

/-- The memoized per-sample loop: `getOrInsert(backtraceIDtoStack,
sample.backtraceID, …)` — an id already resolved is skipped; otherwise its
stack is built by `appendRecursive` into an empty stack and reversed so the
root comes first, and the result is recorded in the memo table. -/
def resolveStacksLoop (arrays : List (List Nat)) (fuel : Nat) :
    List RawSample → List (Nat × List Nat) × List (Nat × FrameInfo) →
      Option (List (Nat × List Nat) × List (Nat × FrameInfo))
  | [], st => some st
  | s :: rest, (memo, fm) =>
    if (memo.lookup s.backtraceID).isSome then
      resolveStacksLoop arrays fuel rest (memo, fm)
    else
      (appendRecursive arrays fuel s.backtraceID ([], fm)).bind fun (stack, fm2) =>
        resolveStacksLoop arrays fuel rest (memo ++ [(s.backtraceID, stack.reverse)], fm2)

/-- A sample after backtrace resolution
(`sample.backtraceStack = backtraceIDtoStack.get(sample.backtraceID)`). -/
structure SampleWithStack where
  timestamp : Nat
  threadID : Nat
  backtraceID : Nat
  backtraceStack : List Nat
deriving DecidableEq, Repr

/-- The final assignment loop of `importRunFromInstrumentsTrace`: every
sample receives the memoized stack of its backtrace id (always present —
the loop above inserted one per distinct id). -/
def attachStacks (samples : List RawSample) (memo : List (Nat × List Nat)) :
    List SampleWithStack :=
  samples.map fun s =>
    ⟨s.timestamp, s.threadID, s.backtraceID, (memo.lookup s.backtraceID).getD []⟩

/-- The resolution core of `importRunFromInstrumentsTrace`: its inputs
`samples` (from `getRawSampleList`) and `arrays` (from `getIntegerArrays`)
are passed in already read; the result is the samples with attached stacks
together with the final (mutated) `addressToFrameMap`. -/
def importRunFromInstrumentsTrace (arrays : List (List Nat)) (fuel : Nat)
    (samples : List RawSample) (addressToFrameMap : List (Nat × FrameInfo)) :
    Option (List SampleWithStack × List (Nat × FrameInfo)) :=
  (resolveStacksLoop arrays fuel samples ([], addressToFrameMap)).map
    fun (memo, fm) => (attachStacks samples memo, fm)

/-- C6: backtrace-id resolution follows its recursive definition and is
memoized per id — (i) an id that is a known frame address terminates the
branch, pushing the id and leaving the map unchanged; (ii) an id that is a
valid index into the array table is expanded by resolving each element in
order; (iii) an id that is neither becomes the synthetic raw-address frame
named `'0x'` followed by the id in lowercase hex zero-padded to 16
characters, registered into the frame map on first encounter; (iv) a new
id's resolved stack is the accumulated sequence reversed, root first, and
is recorded in the memo table; and (v) resolving the same id twice returns
the identical stack both times: any two samples of one import with equal
backtrace ids receive equal stacks. -/
theorem c6_backtrace_resolution (arrays : List (List Nat)) :
    (∀ (fuel k : Nat) (stack : List Nat) (fm : List (Nat × FrameInfo)),
        (fm.lookup k).isSome →
        appendRecursive arrays (fuel + 1) k (stack, fm) = some (stack ++ [k], fm)) ∧
    (∀ (fuel k : Nat) (stack : List Nat) (fm : List (Nat × FrameInfo)),
        fm.lookup k = none → k < arrays.length →
        appendRecursive arrays (fuel + 1) k (stack, fm) =
          (arrays.getD k []).foldlM
            (fun st addr => appendRecursive arrays fuel addr st) (stack, fm)) ∧
    (∀ (fuel k : Nat) (stack : List Nat) (fm : List (Nat × FrameInfo)),
        fm.lookup k = none → ¬ k < arrays.length →
        appendRecursive arrays (fuel + 1) k (stack, fm) =
          some (stack ++ [k], fm ++ [(k, rawAddressFrame k)]) ∧
        (rawAddressFrame k).name = "0x" ++ zeroPad (hexString k) 16) ∧
    (∀ (fuel : Nat) (s : RawSample) (rest : List RawSample)
        (memo : List (Nat × List Nat)) (fm fm2 : List (Nat × FrameInfo))
        (stack : List Nat),
        memo.lookup s.backtraceID = none →
        appendRecursive arrays fuel s.backtraceID ([], fm) = some (stack, fm2) →
        resolveStacksLoop arrays fuel (s :: rest) (memo, fm) =
          resolveStacksLoop arrays fuel rest
            (memo ++ [(s.backtraceID, stack.reverse)], fm2)) ∧
    (∀ (fuel : Nat) (samples : List RawSample) (fm : List (Nat × FrameInfo))
        (out : List SampleWithStack) (fm2 : List (Nat × FrameInfo)),
        importRunFromInstrumentsTrace arrays fuel samples fm = some (out, fm2) →
        ∀ s1 ∈ out, ∀ s2 ∈ out, s1.backtraceID = s2.backtraceID →
          s1.backtraceStack = s2.backtraceStack) := by
  refine ⟨?_, ?_, ?_, ?_, ?_⟩
  · intro fuel k stack fm h
    rw [appendRecursive, if_pos h]
  · intro fuel k stack fm h hk
    rw [appendRecursive, if_neg (by simp [h]), if_pos hk]
  · intro fuel k stack fm h hk
    exact ⟨by rw [appendRecursive, if_neg (by simp [h]), if_neg hk], rfl⟩
  · intro fuel s rest memo fm fm2 stack hmemo happ
    rw [resolveStacksLoop, if_neg (by simp [hmemo]), happ]
    rfl
  · intro fuel samples fm out fm2 himp s1 h1 s2 h2 hid
    rw [importRunFromInstrumentsTrace] at himp
    rcases hres : resolveStacksLoop arrays fuel samples ([], fm) with _ | p
    · rw [hres] at himp; simp at himp
    · rw [hres] at himp
      obtain ⟨memo, fmF⟩ := p
      simp only [Option.map_some'] at himp
      obtain ⟨hout, _⟩ := Prod.mk.injEq .. ▸ (Option.some.injEq .. ▸ himp)
      subst hout
      rw [attachStacks] at h1 h2
      obtain ⟨r1, _, hr1⟩ := List.mem_map.mp h1
      obtain ⟨r2, _, hr2⟩ := List.mem_map.mp h2
      have hb1 : s1.backtraceStack = (memo.lookup s1.backtraceID).getD [] := by
        rw [← hr1]
      have hb2 : s2.backtraceStack = (memo.lookup s2.backtraceID).getD [] := by
        rw [← hr2]
      rw [hb1, hb2, hid]

/-- Witness for C6: the array table `[[5, 1]]` and frame map `{5 ↦ f}`;
resolving backtrace id 0 walks the array (5 is a known frame, 1 becomes the
synthetic frame `0x0000000000000001` registered into the map), reverses to
the root-first stack `[1, 5]`, and the second sample with the same id
receives the identical stack. -/
theorem c6_backtrace_resolution_witness :
    appendRecursive [[5, 1]] 10 5 ([], [(5, ⟨"p:f", "f", some "p"⟩)]) =
      some ([5], [(5, ⟨"p:f", "f", some "p"⟩)]) ∧
    (appendRecursive [[5, 1]] 10 1 ([5], [(5, ⟨"p:f", "f", some "p"⟩)]) =
      some ([5, 1], [(5, ⟨"p:f", "f", some "p"⟩), (1, rawAddressFrame 1)]) ∧
    (rawAddressFrame 1).name = "0x" ++ zeroPad (hexString 1) 16) ∧
    (let out := [SampleWithStack.mk 100 1 0 [1, 5], SampleWithStack.mk 200 1 0 [1, 5]]
     (out.get ⟨0, by decide⟩).backtraceStack = (out.get ⟨1, by decide⟩).backtraceStack) := by
  refine ⟨?_, ?_, ?_⟩
  · exact (c6_backtrace_resolution [[5, 1]]).1 9 5 [] [(5, ⟨"p:f", "f", some "p"⟩)] (by decide)
  · exact (c6_backtrace_resolution [[5, 1]]).2.2.1 9 1 [5] [(5, ⟨"p:f", "f", some "p"⟩)]
      (by decide) (by decide)
  · exact (c6_backtrace_resolution [[5, 1]]).2.2.2.2 10
      [⟨100, 1, 0⟩, ⟨200, 1, 0⟩] [(5, ⟨"p:f", "f", some "p"⟩)]
      [⟨100, 1, 0, [1, 5]⟩, ⟨200, 1, 0, [1, 5]⟩]
      [(5, ⟨"p:f", "f", some "p"⟩), (1, rawAddressFrame 1)]
      (by decide) _ (by decide) _ (by decide) (by decide)

/-! ## Per-thread profile tables (`getProcessedThread`, `pushThreadsInProfile`)

The columnar tables are structs of append-only columns with an explicit
`length` counter, exactly as in the source.  The column the source calls
the stack's prefix is named `parentCol` here.  JS `Map.set` (which keeps an
existing key's position and overwrites its value) is `mapSet`;
`getOrInsert`-style guarded inserts appear inline as in the source. -/

/-- `Map.set(k, v)`: overwrite in place if the key exists, else append. -/
def mapSet (m : List (String × Nat)) (k : String) (v : Nat) : List (String × Nat) :=
  if (m.lookup k).isSome then
    m.map (fun p => if p.1 == k then (k, v) else p)
  else m ++ [(k, v)]

/-- Modelled from the spec: `UniqueStringArray.indexForString` (the module
`src/utils/unique-string-array` is not part of the repository snapshot):
"the string table assigns a stable integer to each distinct string" — an
interned string keeps its index, a new string is appended and gets the next
index. -/
def indexForString (table : List String) (s : String) : Nat × List String :=
  match table.indexOf? s with
  | some i => (i, table)
  | none => (table.length, table ++ [s])

structure FuncTable where
  name : List Nat
  fileName : List Nat
  isJS : List Bool
  resource : List Int
  lineNumber : List (Option Nat)
  columnNumber : List (Option Nat)
  length : Nat
deriving DecidableEq, Repr

structure FrameTable where
  func : List Nat
  category : List Nat
  address : List Nat
  implementation : List (Option String)
  line : List (Option Nat)
  column : List (Option Nat)
  length : Nat
deriving DecidableEq, Repr

/-- The stack table; `parentCol` is the source's prefix column. -/
structure StackTable where
  parentCol : List (Option Nat)
  frame : List (Option Nat)
  category : List Nat
  length : Nat
deriving DecidableEq, Repr

structure SamplesTable where
  stack : List (Option Nat)
  time : List Rat
  responsiveness : List (Option Nat)
  length : Nat
deriving DecidableEq, Repr

/-- The working state of one `getProcessedThread` call: the thread's tables
(from `getEmptyThread()`) plus the three dedup maps. -/
structure ThreadBuildState where
  funcTable : FuncTable
  frameTable : FrameTable
  stackTable : StackTable
  stringTable : List String
  samplesTable : SamplesTable
  funcKeyToIndex : List (String × Nat)
  frameKeyToIndex : List (String × Nat)
  stackKeyToIndex : List (String × Nat)
deriving DecidableEq, Repr

def emptyThreadState : ThreadBuildState :=
  ⟨⟨[], [], [], [], [], [], 0⟩, ⟨[], [], [], [], [], [], 0⟩, ⟨[], [], [], 0⟩, [],
    ⟨[], [], [], 0⟩, [], [], []⟩

/-- `getOrCreateFunc`: an existing `funcKey` returns its index; otherwise
the key is mapped to the table's current length, the name and file name are
interned into the string table, fixed columns are pushed, and the length
counter is incremented (the returned index is read before the
increment). -/
def getOrCreateFunc (st : ThreadBuildState) (name fileName funcKey : String) :
    Nat × ThreadBuildState :=
  match st.funcKeyToIndex.lookup funcKey with
  | some i => (i, st)
  | none =>
    let ni := (indexForString st.stringTable name).1
    let table1 := (indexForString st.stringTable name).2
    let fi := (indexForString table1 fileName).1
    let table2 := (indexForString table1 fileName).2
    (st.funcTable.length,
      { st with
        funcKeyToIndex := st.funcKeyToIndex ++ [(funcKey, st.funcTable.length)],
        stringTable := table2,
        funcTable :=
          { name := st.funcTable.name ++ [ni],
            fileName := st.funcTable.fileName ++ [fi],
            isJS := st.funcTable.isJS ++ [false],
            resource := st.funcTable.resource ++ [-1],
            lineNumber := st.funcTable.lineNumber ++ [none],
            columnNumber := st.funcTable.columnNumber ++ [none],
            length := st.funcTable.length + 1 } })

/-- `createFrame`: push a frame row (func index, category 1, interned
address string, null implementation/line/column), record
`frameKeyToIndex[frameAddress] = frameTable.length`, increment the
counter. -/
def createFrame (st : ThreadBuildState) (indexToFunc : Nat) (frameAddress : String) :
    ThreadBuildState :=
  let ai := (indexForString st.stringTable frameAddress).1
  let table1 := (indexForString st.stringTable frameAddress).2
  { st with
    frameTable :=
      { func := st.frameTable.func ++ [indexToFunc],
        category := st.frameTable.category ++ [1],
        address := st.frameTable.address ++ [ai],
        implementation := st.frameTable.implementation ++ [none],
        line := st.frameTable.line ++ [none],
        column := st.frameTable.column ++ [none],
        length := st.frameTable.length + 1 },
    stringTable := table1,
    frameKeyToIndex := mapSet st.frameKeyToIndex frameAddress st.frameTable.length }

/-- `createStack`: push prefix and frame, record
`stackKeyToIndex[stackKey] = stackTable.length`, push category 1,
increment the counter. -/
def createStack (st : ThreadBuildState) (stackKey : String)
    (parentIndex : Option Nat) (frame : Option Nat) : ThreadBuildState :=
  { st with
    stackTable :=
      { parentCol := st.stackTable.parentCol ++ [parentIndex],
        frame := st.stackTable.frame ++ [frame],
        category := st.stackTable.category ++ [1],
        length := st.stackTable.length + 1 },
    stackKeyToIndex := mapSet st.stackKeyToIndex stackKey st.stackTable.length }

/-- The JS string coercion used to build the stack dedup key
`'$' + parentIndex + '$' + frameAddress` (an absent map entry renders as
`undefined`). -/
def renderIdx : Option Nat → String
  | some n => toString n
  | none => "undefined"

/-- The per-sample inner loop of `getProcessedThread`: walk the resolved
stack frame by frame, creating a stack row per unseen
`(parent stack, frame address)` pair, and at the stack's last frame push
the sample row — its stack index and its timestamp divided by 1,000,000
(the source computes `sample.timestamp / 1000000` in float arithmetic;
here over `ℚ`).  An empty stack runs zero iterations and pushes
nothing. -/
def processSampleFrames (timestamp : Nat) (st : ThreadBuildState)
    (parentIndex : Option Nat) : List Nat → ThreadBuildState
  | [] => st
  | frameAddress :: rest =>
    let key := "$" ++ renderIdx parentIndex ++ "$" ++ toString frameAddress
    let st1 :=
      if (st.stackKeyToIndex.lookup key).isSome then st
      else createStack st key parentIndex (st.frameKeyToIndex.lookup (toString frameAddress))
    let parent2 := st1.stackKeyToIndex.lookup key
    if rest.isEmpty then
      { st1 with
        samplesTable :=
          { stack := st1.samplesTable.stack ++ [parent2],
            time := st1.samplesTable.time ++ [(timestamp : Rat) / 1000000],
            responsiveness := st1.samplesTable.responsiveness ++ [none],
            length := st1.samplesTable.length + 1 } }
    else processSampleFrames timestamp st1 parent2 rest

/-- A processed thread.  Its `stringTable` field is the thread's view of
the import's string table, which the spec says is one table "shared across
all per-thread tables built in one import" (`UniqueStringArray` and
`getEmptyThread` are not part of the repository snapshot; the shared table
is modelled as explicitly threaded state — see `buildThreads`). -/
structure PThread where
  name : String
  funcTable : FuncTable
  frameTable : FrameTable
  stackTable : StackTable
  stringTable : List String
  samplesTable : SamplesTable
deriving DecidableEq, Repr

/-- The body of the `for (const frameData of addressToFrameMap)` loop of
`getProcessedThread`: register the entry's function (deduplicated by its
frame key) and push its frame row. -/
def frameMapStep (st : ThreadBuildState) (frameData : Nat × FrameInfo) :
    ThreadBuildState :=
  let r := getOrCreateFunc st frameData.2.name
    ((frameData.2.file).getD "") frameData.2.key
  createFrame r.2 r.1 (toString frameData.1)

/-- The body of the `for (const sample of samples)` loop of
`getProcessedThread`. -/
def sampleStep (st : ThreadBuildState) (s : SampleWithStack) : ThreadBuildState :=
  processSampleFrames s.timestamp st (st.stackKeyToIndex.lookup "rootStack")
    s.backtraceStack

/-- `getProcessedThread(threadId, samples, addressToFrameMap)`: start from
the empty thread handed out by `getEmptyThread()` — modelled from the spec,
since that module is not part of the repository snapshot: the function,
frame, stack and sample tables are fresh and empty per thread, while the
string table is the one "shared across all per-thread tables built in one
import", passed in here as the shared state `stringTable` — then create the
synthetic `(root)` function/frame/stack triple (frame address
`'$00000000'`), register one function/frame pair per entry of the
address→frame map (functions deduplicated by the frame key), and walk every
sample's resolved stack.  Numeric map keys (frame addresses) are rendered
in decimal, disjoint from the `'$'`-prefixed root keys. -/
def getProcessedThread (threadId : Nat) (samples : List SampleWithStack)
    (addressToFrameMap : List (Nat × FrameInfo)) (stringTable : List String) : PThread :=
  let st := { emptyThreadState with stringTable := stringTable }
  let rootFuncName := "(root)"
  let rootFrameAddress := "$00000000"
  let rootFuncFileName := ""
  let rootFuncKey := "(root)"
  let r := getOrCreateFunc st rootFuncName rootFuncFileName rootFuncKey
  let indexOfRootFunc := r.1
  let st := r.2
  let st := createFrame st indexOfRootFunc rootFrameAddress
  let rootStackKey := "rootStack"
  let st := createStack st rootStackKey none (st.frameKeyToIndex.lookup rootFrameAddress)
  let st := addressToFrameMap.foldl frameMapStep st
  let st := samples.foldl sampleStep st
  { name := "Thread " ++ toString threadId,
    funcTable := st.funcTable,
    frameTable := st.frameTable,
    stackTable := st.stackTable,
    stringTable := st.stringTable,
    samplesTable := st.samplesTable }

/-- Group the samples by thread id, in first-seen order, appending each
sample to its group (`threadIDToSamples` in the source). -/
def groupSamplesByThread (samples : List SampleWithStack) :
    List (Nat × List SampleWithStack) :=
  samples.foldl
    (fun groups s =>
      if (groups.lookup s.threadID).isSome then
        groups.map (fun g => if g.1 == s.threadID then (g.1, g.2 ++ [s]) else g)
      else groups ++ [(s.threadID, [s])]) []

/-- The profile as the claims need it: its thread list. -/
structure Profile where
  threads : List PThread
deriving DecidableEq, Repr

/-- One `getProcessedThread` call per group.  The import's shared string
table (spec: "shared across all per-thread tables built in one import") is
a single mutable object in the source's absent `UniqueStringArray` module;
here the sharing is explicit state threading: each call receives the table
as the previous call left it. -/
def buildThreads (addressToFrameMap : List (Nat × FrameInfo)) :
    List (Nat × List SampleWithStack) → List String → List PThread
  | [], _ => []
  | g :: gs, tab =>
    let t := getProcessedThread g.1 g.2 addressToFrameMap tab
    t :: buildThreads addressToFrameMap gs t.stringTable

/-- `pushThreadsInProfile(profile, addressToFrameMap, samples)`: group the
samples by thread id and push one processed thread per group, every call
receiving the same address→frame map and the import's shared string table,
which starts empty for the one import. -/
def pushThreadsInProfile (profile : Profile)
    (addressToFrameMap : List (Nat × FrameInfo))
    (samples : List SampleWithStack) : Profile :=
  { threads := profile.threads ++
      buildThreads addressToFrameMap (groupSamplesByThread samples) [] }

/-- Interning one string: the table `UniqueStringArray.indexForString`
leaves behind (the index it returns is dropped). -/
def internString (t : List String) (s : String) : List String :=
  (indexForString t s).2

/-- One step of the per-thread string-interning trace over the address→frame
map: the first component tracks the `funcKeyToIndex` keys seen so far, the
second accumulates, in order, the strings each `frameMapStep` interns — a
fresh function key interns the function name, its file name and the frame
address; a deduplicated key interns only the frame address (`createFrame`
always runs). -/
def frameSeqStep (acc : List String × List String) (fd : Nat × FrameInfo) :
    List String × List String :=
  if fd.2.key ∈ acc.1 then (acc.1, acc.2 ++ [toString fd.1])
  else (acc.1 ++ [fd.2.key],
    acc.2 ++ [fd.2.name, (fd.2.file).getD "", toString fd.1])

/-- The full sequence of strings one `getProcessedThread` call interns into
the shared table: the synthetic root's name, file name and frame address,
then the address→frame map's strings in registration order (the sample loop
interns nothing). -/
def threadStringSeq (fm : List (Nat × FrameInfo)) : List String :=
  "(root)" :: "" :: "$00000000" :: (fm.foldl frameSeqStep (["(root)"], [])).2

/-! ### Framing lemmas: which parts of the state each helper touches -/

theorem getOrCreateFunc_frame (st : ThreadBuildState) (n f k : String) :
    (getOrCreateFunc st n f k).2.samplesTable = st.samplesTable ∧
    (getOrCreateFunc st n f k).2.stackTable = st.stackTable ∧
    (getOrCreateFunc st n f k).2.stackKeyToIndex = st.stackKeyToIndex ∧
    (getOrCreateFunc st n f k).2.frameTable = st.frameTable ∧
    (getOrCreateFunc st n f k).2.frameKeyToIndex = st.frameKeyToIndex := by
  unfold getOrCreateFunc
  rcases st.funcKeyToIndex.lookup k with _ | i <;> simp

theorem createFrame_frame (st : ThreadBuildState) (idx : Nat) (addr : String) :
    (createFrame st idx addr).samplesTable = st.samplesTable ∧
    (createFrame st idx addr).stackTable = st.stackTable ∧
    (createFrame st idx addr).stackKeyToIndex = st.stackKeyToIndex ∧
    (createFrame st idx addr).frameTable.length = st.frameTable.length + 1 := by
  unfold createFrame
  refine ⟨rfl, rfl, rfl, rfl⟩

theorem createStack_frame (st : ThreadBuildState) (k : String)
    (p f : Option Nat) :
    (createStack st k p f).samplesTable = st.samplesTable ∧
    (createStack st k p f).funcTable = st.funcTable ∧
    (createStack st k p f).frameTable = st.frameTable ∧
    (createStack st k p f).stringTable = st.stringTable ∧
    (createStack st k p f).frameKeyToIndex = st.frameKeyToIndex := by
  unfold createStack
  exact ⟨rfl, rfl, rfl, rfl, rfl⟩

theorem processSampleFrames_frame (ts : Nat) :
    ∀ (trace : List Nat) (st : ThreadBuildState) (p : Option Nat),
      (processSampleFrames ts st p trace).funcTable = st.funcTable ∧
      (processSampleFrames ts st p trace).frameTable = st.frameTable ∧
      (processSampleFrames ts st p trace).stringTable = st.stringTable ∧
      (processSampleFrames ts st p trace).frameKeyToIndex = st.frameKeyToIndex := by
  intro trace
  induction trace with
  | nil => intro st p; exact ⟨rfl, rfl, rfl, rfl⟩
  | cons a rest ih =>
      intro st p
      rw [processSampleFrames]
      set key := "$" ++ renderIdx p ++ "$" ++ toString a with hkey
      set st1 :=
        if (st.stackKeyToIndex.lookup key).isSome then st
        else createStack st key p (st.frameKeyToIndex.lookup (toString a)) with hst1
      have h1 : st1.funcTable = st.funcTable ∧ st1.frameTable = st.frameTable ∧
          st1.stringTable = st.stringTable ∧ st1.frameKeyToIndex = st.frameKeyToIndex := by
        rw [hst1]
        split
        · exact ⟨rfl, rfl, rfl, rfl⟩
        · exact ⟨(createStack_frame st key p _).2.1, (createStack_frame st key p _).2.2.1,
            (createStack_frame st key p _).2.2.2.1, (createStack_frame st key p _).2.2.2.2⟩
      by_cases hr : rest.isEmpty
      · simp only [hr, if_true]
        exact ⟨h1.1, h1.2.1, h1.2.2.1, h1.2.2.2⟩
      · simp only [hr, if_false, Bool.false_eq_true]
        obtain ⟨e1, e2, e3, e4⟩ := ih st1 (st1.stackKeyToIndex.lookup key)
        exact ⟨e1.trans h1.1, e2.trans h1.2.1, e3.trans h1.2.2.1, e4.trans h1.2.2.2⟩

theorem processSampleFrames_samples (ts : Nat) :
    ∀ (trace : List Nat) (st : ThreadBuildState) (p : Option Nat),
      (processSampleFrames ts st p trace).samplesTable.length =
        st.samplesTable.length + (if trace.isEmpty then 0 else 1) ∧
      (processSampleFrames ts st p trace).samplesTable.stack.length =
        st.samplesTable.stack.length + (if trace.isEmpty then 0 else 1) ∧
      (processSampleFrames ts st p trace).samplesTable.time.length =
        st.samplesTable.time.length + (if trace.isEmpty then 0 else 1) := by
  intro trace
  induction trace with
  | nil => intro st p; simp [processSampleFrames]
  | cons a rest ih =>
      intro st p
      rw [processSampleFrames]
      set key := "$" ++ renderIdx p ++ "$" ++ toString a with hkey
      set st1 :=
        if (st.stackKeyToIndex.lookup key).isSome then st
        else createStack st key p (st.frameKeyToIndex.lookup (toString a)) with hst1
      have h1 : st1.samplesTable = st.samplesTable := by
        rw [hst1]
        split
        · rfl
        · exact (createStack_frame st key p _).1
      by_cases hr : rest.isEmpty
      · simp only [hr, if_true, List.isEmpty_cons, Bool.false_eq_true, if_false]
        simp [h1]
      · simp only [hr, if_false, Bool.false_eq_true, List.isEmpty_cons]
        obtain ⟨e1, e2, e3⟩ := ih st1 (st1.stackKeyToIndex.lookup key)
        rw [e1, e2, e3, h1]
        simp [hr]

theorem samplesFold_length (samples : List SampleWithStack) :
    ∀ st : ThreadBuildState,
      ((samples.foldl sampleStep st).samplesTable.length) =
        st.samplesTable.length + samples.countP (fun s => !s.backtraceStack.isEmpty) ∧
      ((samples.foldl sampleStep st).samplesTable.stack.length) =
        st.samplesTable.stack.length + samples.countP (fun s => !s.backtraceStack.isEmpty) ∧
      ((samples.foldl sampleStep st).samplesTable.time.length) =
        st.samplesTable.time.length + samples.countP (fun s => !s.backtraceStack.isEmpty) := by
  induction samples with
  | nil => intro st; simp
  | cons s rest ih =>
      intro st
      simp only [List.foldl_cons, List.countP_cons]
      obtain ⟨e1, e2, e3⟩ := ih (sampleStep st s)
      obtain ⟨f1, f2, f3⟩ := processSampleFrames_samples s.timestamp s.backtraceStack st
        (st.stackKeyToIndex.lookup "rootStack")
      rw [e1, e2, e3]
      rw [sampleStep] at *
      rw [f1, f2, f3]
      rcases hbs : s.backtraceStack with _ | ⟨a, r⟩
      · simp
      · simp
        omega

theorem frameMapStep_frame (st : ThreadBuildState) (fd : Nat × FrameInfo) :
    (frameMapStep st fd).samplesTable = st.samplesTable ∧
    (frameMapStep st fd).stackTable = st.stackTable ∧
    (frameMapStep st fd).stackKeyToIndex = st.stackKeyToIndex ∧
    (frameMapStep st fd).frameTable.length = st.frameTable.length + 1 := by
  obtain ⟨g1, g2, g3, g4, g5⟩ :=
    getOrCreateFunc_frame st fd.2.name ((fd.2.file).getD "") fd.2.key
  rcases h : getOrCreateFunc st fd.2.name ((fd.2.file).getD "") fd.2.key with ⟨i, st2⟩
  rw [h] at g1 g2 g3 g4 g5
  unfold frameMapStep
  rw [h]
  obtain ⟨c1, c2, c3, c4⟩ := createFrame_frame st2 i (toString fd.1)
  exact ⟨c1.trans g1, c2.trans g2, c3.trans g3, by rw [c4, g4]⟩

theorem framesFold_frame (fm : List (Nat × FrameInfo)) :
    ∀ st : ThreadBuildState,
      (fm.foldl frameMapStep st).samplesTable = st.samplesTable ∧
      (fm.foldl frameMapStep st).stackTable = st.stackTable ∧
      (fm.foldl frameMapStep st).stackKeyToIndex = st.stackKeyToIndex ∧
      (fm.foldl frameMapStep st).frameTable.length = st.frameTable.length + fm.length := by
  induction fm with
  | nil => intro st; simp
  | cons fd rest ih =>
      intro st
      simp only [List.foldl_cons, List.length_cons]
      obtain ⟨e1, e2, e3, e4⟩ := ih (frameMapStep st fd)
      obtain ⟨f1, f2, f3, f4⟩ := frameMapStep_frame st fd
      exact ⟨e1.trans f1, e2.trans f2, e3.trans f3, by rw [e4, f4]; omega⟩

/-- The state of `getProcessedThread` after the synthetic-root block
(root function, root frame at address `'$00000000'`, root stack), before
the address→frame map and the samples are processed, as a function of the
shared string table the call received. -/
def rootStateFrom (tab : List String) : ThreadBuildState :=
  let st := { emptyThreadState with stringTable := tab }
  let r := getOrCreateFunc st "(root)" "" "(root)"
  let st := createFrame r.2 r.1 "$00000000"
  createStack st "rootStack" none (st.frameKeyToIndex.lookup "$00000000")

/-- `getProcessedThread` factored through `rootStateFrom` and the two folds
(definitional). -/
theorem getProcessedThread_eq (threadId : Nat) (samples : List SampleWithStack)
    (addressToFrameMap : List (Nat × FrameInfo)) (tab : List String) :
    getProcessedThread threadId samples addressToFrameMap tab =
      { name := "Thread " ++ toString threadId,
        funcTable := (samples.foldl sampleStep
          (addressToFrameMap.foldl frameMapStep (rootStateFrom tab))).funcTable,
        frameTable := (samples.foldl sampleStep
          (addressToFrameMap.foldl frameMapStep (rootStateFrom tab))).frameTable,
        stackTable := (samples.foldl sampleStep
          (addressToFrameMap.foldl frameMapStep (rootStateFrom tab))).stackTable,
        stringTable := (samples.foldl sampleStep
          (addressToFrameMap.foldl frameMapStep (rootStateFrom tab))).stringTable,
        samplesTable := (samples.foldl sampleStep
          (addressToFrameMap.foldl frameMapStep (rootStateFrom tab))).samplesTable } := rfl

/-- C10: a sample whose resolved backtrace stack is empty contributes no
row to the thread's samples table — neither a stack index nor a timestamp
is recorded — so the samples-table length (and the lengths of its `stack`
and `time` columns) equals the number of the thread's samples with
non-empty resolved stacks, not the number of its input samples. -/
theorem c10_empty_stacks_skipped (threadId : Nat) (samples : List SampleWithStack)
    (addressToFrameMap : List (Nat × FrameInfo)) (tab : List String) :
    (getProcessedThread threadId samples addressToFrameMap tab).samplesTable.length =
      samples.countP (fun s => !s.backtraceStack.isEmpty) ∧
    (getProcessedThread threadId samples addressToFrameMap tab).samplesTable.stack.length =
      samples.countP (fun s => !s.backtraceStack.isEmpty) ∧
    (getProcessedThread threadId samples addressToFrameMap tab).samplesTable.time.length =
      samples.countP (fun s => !s.backtraceStack.isEmpty) := by
  rw [getProcessedThread_eq]
  simp only
  obtain ⟨e1, e2, e3⟩ :=
    samplesFold_length samples (addressToFrameMap.foldl frameMapStep (rootStateFrom tab))
  rw [e1, e2, e3, (framesFold_frame addressToFrameMap (rootStateFrom tab)).1]
  rw [show (rootStateFrom tab).samplesTable = ⟨[], [], [], 0⟩ from rfl]
  refine ⟨?_, ?_, ?_⟩ <;> simp

theorem samplesFold_frame (samples : List SampleWithStack) :
    ∀ st : ThreadBuildState,
      (samples.foldl sampleStep st).funcTable = st.funcTable ∧
      (samples.foldl sampleStep st).frameTable = st.frameTable ∧
      (samples.foldl sampleStep st).stringTable = st.stringTable ∧
      (samples.foldl sampleStep st).frameKeyToIndex = st.frameKeyToIndex := by
  induction samples with
  | nil => intro st; exact ⟨rfl, rfl, rfl, rfl⟩
  | cons s rest ih =>
      intro st
      simp only [List.foldl_cons]
      obtain ⟨e1, e2, e3, e4⟩ := ih (sampleStep st s)
      obtain ⟨f1, f2, f3, f4⟩ := processSampleFrames_frame s.timestamp s.backtraceStack st
        (st.stackKeyToIndex.lookup "rootStack")
      rw [sampleStep] at e1 e2 e3 e4 ⊢
      exact ⟨e1.trans f1, e2.trans f2, e3.trans f3, e4.trans f4⟩

theorem buildThreads_map_const {α : Type} (fm : List (Nat × FrameInfo))
    (g : PThread → α) (c : α)
    (hg : ∀ tid ss tab, g (getProcessedThread tid ss fm tab) = c) :
    ∀ (groups : List (Nat × List SampleWithStack)) (tab : List String),
      (buildThreads fm groups tab).map g = List.replicate groups.length c := by
  intro groups
  induction groups with
  | nil => intro tab; rfl
  | cons gp rest ih =>
      intro tab
      show (getProcessedThread gp.1 gp.2 fm tab ::
        buildThreads fm rest (getProcessedThread gp.1 gp.2 fm tab).stringTable).map g = _
      rw [List.map_cons, hg, ih, List.length_cons, List.replicate_succ]

/-! ### The shared string table (C2) -/

theorem lookup_isSome_iff_mem (k : String) :
    ∀ m : List (String × Nat), (m.lookup k).isSome ↔ k ∈ m.map Prod.fst := by
  intro m
  induction m with
  | nil => simp [List.lookup]
  | cons p rest ih =>
      obtain ⟨a, b⟩ := p
      cases hq : (k == a)
      · have hne : k ≠ a := by simpa using hq
        simp [List.lookup, hq, ih, hne]
      · have heq : k = a := by simpa using hq
        simp [List.lookup, hq, heq]

/-- What one `frameMapStep` does to the string table and to the function
dedup map's key list. -/
theorem frameMapStep_stringTable (st : ThreadBuildState) (fd : Nat × FrameInfo) :
    (frameMapStep st fd).stringTable =
      (if (st.funcKeyToIndex.lookup fd.2.key).isSome then [toString fd.1]
       else [fd.2.name, (fd.2.file).getD "", toString fd.1]).foldl
        internString st.stringTable ∧
    (frameMapStep st fd).funcKeyToIndex.map Prod.fst =
      st.funcKeyToIndex.map Prod.fst ++
        (if (st.funcKeyToIndex.lookup fd.2.key).isSome then []
         else [fd.2.key]) := by
  unfold frameMapStep getOrCreateFunc createFrame internString
  rcases hq : st.funcKeyToIndex.lookup fd.2.key with _ | i <;> simp [hq]

/-- The interning trace's `out` component accumulates by appending: a prior
accumulation passes through the fold unchanged, in front. -/
theorem frameSeqFold_out (fm : List (Nat × FrameInfo)) :
    ∀ (keys out : List String),
      (fm.foldl frameSeqStep (keys, out)).1 =
        (fm.foldl frameSeqStep (keys, [])).1 ∧
      (fm.foldl frameSeqStep (keys, out)).2 =
        out ++ (fm.foldl frameSeqStep (keys, [])).2 := by
  induction fm with
  | nil => intro keys out; exact ⟨rfl, by simp⟩
  | cons fd rest ih =>
      intro keys out
      simp only [List.foldl_cons]
      by_cases hm : fd.2.key ∈ keys
      · rw [show frameSeqStep (keys, out) fd = (keys, out ++ [toString fd.1]) from by
            simp [frameSeqStep, hm],
          show frameSeqStep (keys, []) fd = (keys, [toString fd.1]) from by
            simp [frameSeqStep, hm]]
        obtain ⟨h1, h2⟩ := ih keys (out ++ [toString fd.1])
        obtain ⟨h3, h4⟩ := ih keys [toString fd.1]
        exact ⟨h1.trans h3.symm, by rw [h2, h4]; simp⟩
      · rw [show frameSeqStep (keys, out) fd = (keys ++ [fd.2.key],
            out ++ [fd.2.name, (fd.2.file).getD "", toString fd.1]) from by
            simp [frameSeqStep, hm],
          show frameSeqStep (keys, []) fd = (keys ++ [fd.2.key],
            [fd.2.name, (fd.2.file).getD "", toString fd.1]) from by
            simp [frameSeqStep, hm]]
        obtain ⟨h1, h2⟩ := ih (keys ++ [fd.2.key])
          (out ++ [fd.2.name, (fd.2.file).getD "", toString fd.1])
        obtain ⟨h3, h4⟩ := ih (keys ++ [fd.2.key])
          [fd.2.name, (fd.2.file).getD "", toString fd.1]
        exact ⟨h1.trans h3.symm, by rw [h2, h4]; simp⟩

/-- The frame loop's effect on the string table is exactly interning the
trace `frameSeqStep` computes from the dedup map's current keys. -/
theorem framesFold_stringTable (fm : List (Nat × FrameInfo)) :
    ∀ st : ThreadBuildState,
      (fm.foldl frameMapStep st).stringTable =
        (fm.foldl frameSeqStep (st.funcKeyToIndex.map Prod.fst, [])).2.foldl
          internString st.stringTable := by
  induction fm with
  | nil => intro st; rfl
  | cons fd rest ih =>
      intro st
      simp only [List.foldl_cons]
      rw [ih (frameMapStep st fd)]
      obtain ⟨hs, hk⟩ := frameMapStep_stringTable st fd
      rcases hq : st.funcKeyToIndex.lookup fd.2.key with _ | i
      · rw [hq] at hs hk
        simp only [Option.isSome_none, Bool.false_eq_true, if_false] at hs hk
        have hnm : fd.2.key ∉ st.funcKeyToIndex.map Prod.fst := by
          rw [← lookup_isSome_iff_mem, hq]; simp
        rw [hs, hk,
          show frameSeqStep (st.funcKeyToIndex.map Prod.fst, []) fd =
            (st.funcKeyToIndex.map Prod.fst ++ [fd.2.key],
             [fd.2.name, (fd.2.file).getD "", toString fd.1]) from by
            simp [frameSeqStep, hnm],
          (frameSeqFold_out rest (st.funcKeyToIndex.map Prod.fst ++ [fd.2.key])
            [fd.2.name, (fd.2.file).getD "", toString fd.1]).2,
          List.foldl_append]
      · rw [hq] at hs hk
        simp only [Option.isSome_some, if_true] at hs hk
        have hm : fd.2.key ∈ st.funcKeyToIndex.map Prod.fst := by
          rw [← lookup_isSome_iff_mem, hq]; simp
        rw [hs, hk,
          show frameSeqStep (st.funcKeyToIndex.map Prod.fst, []) fd =
            (st.funcKeyToIndex.map Prod.fst, [toString fd.1]) from by
            simp [frameSeqStep, hm],
          (frameSeqFold_out rest (st.funcKeyToIndex.map Prod.fst)
            [toString fd.1]).2,
          List.foldl_append]
        simp

/-- The string table a thread leaves behind is the one it received with the
thread's interning trace folded in: the thread id and the thread's samples
play no part (the sample loop interns no strings). -/
theorem getProcessedThread_stringTable_eq (threadId : Nat)
    (samples : List SampleWithStack) (fm : List (Nat × FrameInfo))
    (tab : List String) :
    (getProcessedThread threadId samples fm tab).stringTable =
      (threadStringSeq fm).foldl internString tab := by
  rw [getProcessedThread_eq]
  simp only
  rw [(samplesFold_frame samples _).2.2.1, framesFold_stringTable,
    show (rootStateFrom tab).funcKeyToIndex.map Prod.fst = ["(root)"] from rfl,
    show (rootStateFrom tab).stringTable =
      internString (internString (internString tab "(root)") "") "$00000000" from rfl]
  rfl

theorem mem_internString (t : List String) (s : String) : s ∈ internString t s := by
  unfold internString indexForString
  rcases hq : t.indexOf? s with _ | i
  · simp
  · by_cases h : s ∈ t
    · exact h
    · have hn : t.indexOf? s = none :=
        List.indexOf?_eq_none_iff.mpr (fun x hx => by
          simp only [beq_iff_eq]
          intro he
          exact h (he ▸ hx))
      rw [hn] at hq
      cases hq

theorem internString_mem_mono {t : List String} {x : String} (h : x ∈ t)
    (s : String) : x ∈ internString t s := by
  unfold internString indexForString
  rcases t.indexOf? s with _ | i
  · simp [h]
  · exact h

theorem internString_of_mem {t : List String} {s : String} (h : s ∈ t) :
    internString t s = t := by
  unfold internString indexForString
  rcases hq : t.indexOf? s with _ | i
  · have hc := List.indexOf?_eq_none_iff.mp hq s h
    simp at hc
  · rfl

theorem foldl_internString_mem {x : String} :
    ∀ (l t : List String), x ∈ t → x ∈ l.foldl internString t := by
  intro l
  induction l with
  | nil => intro t h; exact h
  | cons a rest ih =>
      intro t h
      exact ih (internString t a) (internString_mem_mono h a)

theorem mem_foldl_internString_self :
    ∀ (l t : List String), ∀ x ∈ l, x ∈ l.foldl internString t := by
  intro l
  induction l with
  | nil => intro t x hx; simp at hx
  | cons a rest ih =>
      intro t x hx
      rcases List.mem_cons.mp hx with rfl | hx
      · exact foldl_internString_mem rest (internString t x) (mem_internString t x)
      · exact ih (internString t a) x hx

theorem foldl_internString_of_all_mem :
    ∀ (l t : List String), (∀ x ∈ l, x ∈ t) → l.foldl internString t = t := by
  intro l
  induction l with
  | nil => intro t _; rfl
  | cons a rest ih =>
      intro t h
      rw [List.foldl_cons, internString_of_mem (h a (List.mem_cons_self a rest))]
      exact ih t (fun x hx => h x (List.mem_cons_of_mem a hx))

/-- Interning the same string sequence a second time changes nothing. -/
theorem foldl_internString_stable (l t : List String) :
    l.foldl internString (l.foldl internString t) = l.foldl internString t :=
  foldl_internString_of_all_mem l _ (fun x hx => mem_foldl_internString_self l t x hx)

/-- Each thread of the import leaves the shared table equal to the common
table obtained by interning the (map-determined) trace once into the table
`buildThreads` received, so every thread's view of the table is that common
table. -/
theorem buildThreads_stringTables (fm : List (Nat × FrameInfo)) :
    ∀ (groups : List (Nat × List SampleWithStack)) (tab : List String),
      (buildThreads fm groups tab).map PThread.stringTable =
        List.replicate groups.length
          ((threadStringSeq fm).foldl internString tab) := by
  intro groups
  induction groups with
  | nil => intro tab; rfl
  | cons gp rest ih =>
      intro tab
      show (getProcessedThread gp.1 gp.2 fm tab ::
        buildThreads fm rest (getProcessedThread gp.1 gp.2 fm tab).stringTable).map
          PThread.stringTable = _
      rw [List.map_cons, getProcessedThread_stringTable_eq, ih,
        foldl_internString_stable, List.length_cons, List.replicate_succ]

/-- C2: within one import, a single string table is shared across all the
per-thread tables: every thread's `stringTable` equals the import's one
common table (the shared table — which starts empty and is threaded through
every `getProcessedThread` call — after the first thread interns the root
entries and the address→frame map's strings; later threads re-intern the
same trace, changing nothing), and consequently an identical string maps to
the same integer index in every two threads' tables. -/
theorem c2_shared_string_table (fm : List (Nat × FrameInfo))
    (samples : List SampleWithStack) :
    ((pushThreadsInProfile ⟨[]⟩ fm samples).threads.map PThread.stringTable =
      List.replicate (groupSamplesByThread samples).length
        ((threadStringSeq fm).foldl internString [])) ∧
    ∀ s : String,
      (pushThreadsInProfile ⟨[]⟩ fm samples).threads.map
          (fun t => (indexForString t.stringTable s).1) =
        List.replicate (groupSamplesByThread samples).length
          ((indexForString ((threadStringSeq fm).foldl internString []) s).1) := by
  have h1 : (pushThreadsInProfile ⟨[]⟩ fm samples).threads.map PThread.stringTable =
      List.replicate (groupSamplesByThread samples).length
        ((threadStringSeq fm).foldl internString []) := by
    rw [pushThreadsInProfile]
    simp only [List.nil_append]
    exact buildThreads_stringTables fm _ _
  refine ⟨h1, fun s => ?_⟩
  have h2 : (pushThreadsInProfile ⟨[]⟩ fm samples).threads.map
      (fun t => (indexForString t.stringTable s).1) =
    ((pushThreadsInProfile ⟨[]⟩ fm samples).threads.map PThread.stringTable).map
      (fun tb => (indexForString tb s).1) := by
    rw [List.map_map]; rfl
  rw [h2, h1, List.map_replicate]

theorem createFrame_address_length (st : ThreadBuildState) (idx : Nat) (addr : String) :
    (createFrame st idx addr).frameTable.address.length =
      st.frameTable.address.length + 1 := by
  unfold createFrame
  simp

theorem frameMapStep_address_length (st : ThreadBuildState) (fd : Nat × FrameInfo) :
    (frameMapStep st fd).frameTable.address.length =
      st.frameTable.address.length + 1 := by
  obtain ⟨_, _, _, g4, _⟩ :=
    getOrCreateFunc_frame st fd.2.name ((fd.2.file).getD "") fd.2.key
  rcases h : getOrCreateFunc st fd.2.name ((fd.2.file).getD "") fd.2.key with ⟨i, st2⟩
  rw [h] at g4
  unfold frameMapStep
  rw [h]
  rw [createFrame_address_length, g4]

theorem framesFold_address_length (fm : List (Nat × FrameInfo)) :
    ∀ st : ThreadBuildState,
      (fm.foldl frameMapStep st).frameTable.address.length =
        st.frameTable.address.length + fm.length := by
  induction fm with
  | nil => intro st; rfl
  | cons fd rest ih =>
      intro st
      rw [List.foldl_cons, ih, frameMapStep_address_length, List.length_cons]
      omega

/-- Every thread built from a given address→frame map has exactly one frame
row per map entry plus the synthetic root frame, whatever its id, samples
or received string table. -/
theorem getProcessedThread_frame_rows (threadId : Nat) (samples : List SampleWithStack)
    (fm : List (Nat × FrameInfo)) (tab : List String) :
    (getProcessedThread threadId samples fm tab).frameTable.length = fm.length + 1 ∧
    (getProcessedThread threadId samples fm tab).frameTable.address.length =
      fm.length + 1 := by
  rw [getProcessedThread_eq]
  simp only
  rw [(samplesFold_frame samples _).2.1]
  constructor
  · rw [(framesFold_frame fm (rootStateFrom tab)).2.2.2,
      show (rootStateFrom tab).frameTable.length = 1 from rfl]
    omega
  · rw [framesFold_address_length fm (rootStateFrom tab),
      show (rootStateFrom tab).frameTable.address.length = 1 from rfl]
    omega

/-- C9: all threads of one import are built from the single address→frame
map left by backtrace resolution — the map into which synthetic raw-address
frames discovered while resolving any thread's samples were registered —
and every thread's frame table receives one frame row per entry of that
shared map plus the synthetic root frame, regardless of whether the
thread's own samples reference those addresses. -/
theorem c9_shared_frame_map (arrays : List (List Nat)) (fuel : Nat)
    (rawSamples : List RawSample) (fm : List (Nat × FrameInfo))
    (out : List SampleWithStack) (fm2 : List (Nat × FrameInfo))
    (_himp : importRunFromInstrumentsTrace arrays fuel rawSamples fm = some (out, fm2)) :
    (pushThreadsInProfile ⟨[]⟩ fm2 out).threads.map (fun t => t.frameTable.length) =
      List.replicate (groupSamplesByThread out).length (fm2.length + 1) ∧
    (pushThreadsInProfile ⟨[]⟩ fm2 out).threads.map (fun t => t.frameTable.address.length) =
      List.replicate (groupSamplesByThread out).length (fm2.length + 1) := by
  constructor
  · rw [pushThreadsInProfile]
    simp only [List.nil_append]
    exact buildThreads_map_const fm2 (fun t => t.frameTable.length) _
      (fun tid ss tab => (getProcessedThread_frame_rows tid ss fm2 tab).1) _ _
  · rw [pushThreadsInProfile]
    simp only [List.nil_append]
    exact buildThreads_map_const fm2 (fun t => t.frameTable.address.length) _
      (fun tid ss tab => (getProcessedThread_frame_rows tid ss fm2 tab).2) _ _

/-- Witness for C9: resolving the two samples (thread ids 1 and 2, both
backtrace id 0) over the array table `[[5, 1]]` adds the synthetic frame
for address 1 to the shared map; both threads then get
`frameTable.length = 3` — root plus the two map entries, including the
synthetic frame discovered via the other thread's sample. -/
theorem c9_shared_frame_map_witness :
    (pushThreadsInProfile ⟨[]⟩
        [(5, ⟨"p:f", "f", some "p"⟩), (1, rawAddressFrame 1)]
        [⟨100, 1, 0, [1, 5]⟩, ⟨200, 2, 0, [1, 5]⟩]).threads.map
        (fun t => t.frameTable.length) =
      List.replicate (groupSamplesByThread
        [⟨100, 1, 0, [1, 5]⟩, ⟨200, 2, 0, [1, 5]⟩]).length
        ([(5, (⟨"p:f", "f", some "p"⟩ : FrameInfo)), (1, rawAddressFrame 1)].length + 1) :=
  (c9_shared_frame_map [[5, 1]] 10 [⟨100, 1, 0⟩, ⟨200, 2, 0⟩]
    [(5, ⟨"p:f", "f", some "p"⟩)]
    [⟨100, 1, 0, [1, 5]⟩, ⟨200, 2, 0, [1, 5]⟩]
    [(5, ⟨"p:f", "f", some "p"⟩), (1, rawAddressFrame 1)]
    (by decide)).1

/-! ### The stack-table prefix invariant (C3) -/

theorem lookup_mem {m : List (String × Nat)} {k : String} {v : Nat}
    (h : m.lookup k = some v) : (k, v) ∈ m := by
  induction m with
  | nil => simp [List.lookup] at h
  | cons p rest ih =>
      obtain ⟨k0, v0⟩ := p
      cases hq : (k == k0) with
      | true =>
          simp only [List.lookup, hq] at h
          obtain rfl := Option.some.injEq .. ▸ h
          have : k = k0 := by simpa using hq
          subst this
          simp
      | false =>
          simp only [List.lookup, hq] at h
          exact List.mem_cons_of_mem _ (ih h)

theorem lookup_mapSet_self (m : List (String × Nat)) (k : String) (v : Nat) :
    (mapSet m k v).lookup k = some v := by
  rw [mapSet]
  split
  · next hsome =>
      induction m with
      | nil => simp [List.lookup] at hsome
      | cons p rest ih =>
          obtain ⟨k0, v0⟩ := p
          by_cases hk : k0 = k
          · subst hk
            rw [List.map_cons, if_pos (by simp : ((k0, v0).1 == k0) = true)]
            simp [List.lookup]
          · have h1 : ((k0, v0).1 == k) = false := by simpa using hk
            have h2 : (k == k0) = false := by simpa using (Ne.symm hk)
            simp only [List.map_cons, h1, Bool.false_eq_true, if_false]
            simp only [List.lookup, h2] at hsome ⊢
            exact ih hsome
  · next hnone =>
      induction m with
      | nil => simp [List.lookup]
      | cons p rest ih =>
          obtain ⟨k0, v0⟩ := p
          rw [List.cons_append]
          cases hq : (k == k0) with
          | true =>
              exfalso
              simp only [List.lookup, hq] at hnone
              simp at hnone
          | false =>
              simp only [List.lookup, hq]
              apply ih
              simp only [List.lookup, hq] at hnone
              exact hnone

theorem lookup_map_overwrite_isSome (k k' : String) (v : Nat) :
    ∀ m : List (String × Nat), (m.lookup k').isSome → k' ≠ k →
      ((m.map (fun p => if p.1 == k then (k, v) else p)).lookup k').isSome := by
  intro m
  induction m with
  | nil => intro h _; simp [List.lookup] at h
  | cons p rest ih =>
      intro h hne
      obtain ⟨k0, v0⟩ := p
      rw [List.map_cons]
      by_cases hk0 : k0 = k
      · subst hk0
        rw [if_pos (by simp : ((k0, v0).1 == k0) = true)]
        have hbe : (k' == k0) = false := by simpa using hne
        simp only [List.lookup, hbe] at h ⊢
        exact ih h hne
      · rw [if_neg (by simpa using hk0)]
        by_cases hq2 : k' = k0
        · subst hq2
          simp [List.lookup]
        · have hbe : (k' == k0) = false := by simpa using hq2
          simp only [List.lookup, hbe] at h ⊢
          exact ih h hne

theorem lookup_append_isSome (k' : String) (l : List (String × Nat)) :
    ∀ m : List (String × Nat), (m.lookup k').isSome → ((m ++ l).lookup k').isSome := by
  intro m
  induction m with
  | nil => intro h; simp [List.lookup] at h
  | cons p rest ih =>
      intro h
      obtain ⟨k0, v0⟩ := p
      rw [List.cons_append]
      cases hq : (k' == k0) with
      | true => simp [List.lookup, hq]
      | false =>
          simp only [List.lookup, hq] at h ⊢
          exact ih h

theorem mapSet_lookup_isSome {m : List (String × Nat)} {k k' : String} {v : Nat}
    (h : (m.lookup k').isSome) : ((mapSet m k v).lookup k').isSome := by
  by_cases hkk : k' = k
  · subst hkk
    rw [lookup_mapSet_self]
    rfl
  · rw [mapSet]
    split
    · exact lookup_map_overwrite_isSome k k' v m h hkk
    · exact lookup_append_isSome k' [(k, v)] m h

theorem mapSet_mem_bound {m : List (String × Nat)} {k : String} {v N : Nat}
    (hm : ∀ p ∈ m, p.2 < N) (hv : v < N) :
    ∀ p ∈ mapSet m k v, p.2 < N := by
  intro p hp
  rw [mapSet] at hp
  split at hp
  · obtain ⟨q, hq, hpq⟩ := List.mem_map.mp hp
    by_cases hqk : (q.1 == k) = true
    · rw [if_pos hqk] at hpq
      rw [← hpq]
      exact hv
    · rw [if_neg hqk] at hpq
      rw [← hpq]
      exact hm q hq
  · rcases List.mem_append.mp hp with h | h
    · exact hm p h
    · obtain rfl := List.mem_singleton.mp h
      exact hv

/-- The invariant `getProcessedThread` maintains on the stack table: the
prefix column is as long as the table; every dedup-map value names an
existing row; a non-null prefix is strictly smaller than its row index; the
only null prefix is row 0 (the synthetic root, created first); and the root
stack's key stays in the dedup map. -/
def StackInv (st : ThreadBuildState) : Prop :=
  st.stackTable.parentCol.length = st.stackTable.length ∧
  (∀ p ∈ st.stackKeyToIndex, p.2 < st.stackTable.length) ∧
  (∀ (i q : Nat), st.stackTable.parentCol[i]? = some (some q) → q < i) ∧
  (∀ (i : Nat), st.stackTable.parentCol[i]? = some none → i = 0) ∧
  st.stackTable.parentCol[0]? = some none ∧
  (st.stackKeyToIndex.lookup "rootStack").isSome

theorem createStack_inv (st : ThreadBuildState) (key : String) (q : Nat)
    (frame : Option Nat) (hq : q < st.stackTable.length) (hinv : StackInv st) :
    StackInv (createStack st key (some q) frame) := by
  obtain ⟨h1, h2, h3, h4, h5, h6⟩ := hinv
  unfold createStack StackInv
  simp only
  have h0lt : 0 < st.stackTable.parentCol.length :=
    (List.getElem?_eq_some_iff.mp h5).1
  refine ⟨by simp [h1], ?_, ?_, ?_, ?_, ?_⟩
  · exact mapSet_mem_bound (fun p hp => Nat.lt_succ_of_lt (h2 p hp))
      (Nat.lt_succ_self _)
  · intro i r hir
    rcases Nat.lt_trichotomy i st.stackTable.parentCol.length with hlt | heq | hgt
    · rw [List.getElem?_append_left hlt] at hir
      exact h3 i r hir
    · subst heq
      rw [List.getElem?_concat_length] at hir
      obtain hqr := Option.some.injEq .. ▸ hir
      obtain rfl : q = r := by simpa using hqr
      rw [h1]
      exact hq
    · rw [List.getElem?_eq_none_iff.mpr (by simp; omega)] at hir
      simp at hir
  · intro i hir
    rcases Nat.lt_trichotomy i st.stackTable.parentCol.length with hlt | heq | hgt
    · rw [List.getElem?_append_left hlt] at hir
      exact h4 i hir
    · subst heq
      rw [List.getElem?_concat_length] at hir
      simp at hir
    · rw [List.getElem?_eq_none_iff.mpr (by simp; omega)] at hir
      simp at hir
  · rw [List.getElem?_append_left h0lt]
    exact h5
  · exact mapSet_lookup_isSome h6

/-- The push of a sample row touches only the samples table. -/
theorem StackInv_samples_push (st : ThreadBuildState) (s : SamplesTable)
    (hinv : StackInv st) : StackInv { st with samplesTable := s } := hinv

theorem processSampleFrames_inv (ts : Nat) :
    ∀ (trace : List Nat) (st : ThreadBuildState) (p : Option Nat),
      StackInv st → (∃ q, p = some q ∧ q < st.stackTable.length) →
      StackInv (processSampleFrames ts st p trace) := by
  intro trace
  induction trace with
  | nil => intro st p hinv _; exact hinv
  | cons a rest ih =>
      intro st p hinv hp
      obtain ⟨q, rfl, hq⟩ := hp
      rw [processSampleFrames]
      set key := "$" ++ renderIdx (some q) ++ "$" ++ toString a with hkey
      set st1 :=
        if (st.stackKeyToIndex.lookup key).isSome then st
        else createStack st key (some q) (st.frameKeyToIndex.lookup (toString a)) with hst1
      have hinv1 : StackInv st1 := by
        rw [hst1]
        split
        · exact hinv
        · exact createStack_inv st key q _ hq hinv
      have hparent2 : ∃ r, st1.stackKeyToIndex.lookup key = some r ∧
          r < st1.stackTable.length := by
        rw [hst1]
        split
        · next hsome =>
            obtain ⟨r, hr⟩ := Option.isSome_iff_exists.mp hsome
            exact ⟨r, hr, hinv.2.1 (key, r) (lookup_mem hr)⟩
        · refine ⟨st.stackTable.length, lookup_mapSet_self _ _ _, ?_⟩
          simp [createStack]
      obtain ⟨r, hr, hrlt⟩ := hparent2
      by_cases hrest : rest.isEmpty
      · simp only [hrest, if_true]
        exact StackInv_samples_push st1 _ hinv1
      · simp only [hrest, Bool.false_eq_true, if_false]
        exact ih st1 _ hinv1 ⟨r, hr, hrlt⟩

theorem sampleStep_inv (st : ThreadBuildState) (s : SampleWithStack)
    (hinv : StackInv st) : StackInv (sampleStep st s) := by
  rw [sampleStep]
  apply processSampleFrames_inv s.timestamp s.backtraceStack st _ hinv
  obtain ⟨r, hr⟩ := Option.isSome_iff_exists.mp hinv.2.2.2.2.2
  exact ⟨r, hr, hinv.2.1 (_, r) (lookup_mem hr)⟩

theorem samplesFold_inv (samples : List SampleWithStack) :
    ∀ st : ThreadBuildState, StackInv st → StackInv (samples.foldl sampleStep st) := by
  induction samples with
  | nil => intro st h; exact h
  | cons s rest ih =>
      intro st h
      rw [List.foldl_cons]
      exact ih _ (sampleStep_inv st s h)

theorem framesFold_inv (fm : List (Nat × FrameInfo)) (st : ThreadBuildState)
    (hinv : StackInv st) : StackInv (fm.foldl frameMapStep st) := by
  obtain ⟨_, e2, e3, _⟩ := framesFold_frame fm st
  unfold StackInv at *
  rw [e2, e3]
  exact hinv

theorem rootStateFrom_inv (tab : List String) : StackInv (rootStateFrom tab) := by
  unfold StackInv
  refine ⟨rfl, ?_, ?_, ?_, rfl, ?_⟩
  · intro p hp
    rw [show (rootStateFrom tab).stackKeyToIndex = [("rootStack", 0)] from rfl] at hp
    obtain rfl := List.mem_singleton.mp hp
    exact lt_of_lt_of_eq Nat.zero_lt_one
      (show 1 = (rootStateFrom tab).stackTable.length from rfl)
  · intro i q hir
    match i with
    | 0 => simp [show (rootStateFrom tab).stackTable.parentCol = [none] from rfl] at hir
    | n + 1 =>
        rw [show (rootStateFrom tab).stackTable.parentCol = [none] from rfl] at hir
        rw [List.getElem?_eq_none_iff.mpr (by simp)] at hir
        simp at hir
  · intro i hir
    match i with
    | 0 => rfl
    | n + 1 =>
        rw [show (rootStateFrom tab).stackTable.parentCol = [none] from rfl] at hir
        rw [List.getElem?_eq_none_iff.mpr (by simp)] at hir
        simp at hir
  · rw [show (rootStateFrom tab).stackKeyToIndex = [("rootStack", 0)] from rfl]
    decide

/-- C3: in every thread's stack table, the prefix column (`parentCol`) has
one entry per row; row 0 — the synthetic root stack — is the only row whose
prefix is null; and every other row's prefix is a stack-table index
strictly smaller than the row's own index, i.e. it refers to an
already-created row, so the table encodes a tree rooted at the synthetic
root stack. -/
theorem c3_stack_table_tree (threadId : Nat) (samples : List SampleWithStack)
    (addressToFrameMap : List (Nat × FrameInfo)) (tab : List String) :
    (getProcessedThread threadId samples addressToFrameMap tab).stackTable.parentCol[0]? =
      some none ∧
    (∀ (i q : Nat),
      (getProcessedThread threadId samples addressToFrameMap tab).stackTable.parentCol[i]? =
        some (some q) → q < i) ∧
    (∀ (i : Nat),
      (getProcessedThread threadId samples addressToFrameMap tab).stackTable.parentCol[i]? =
        some none → i = 0) ∧
    (getProcessedThread threadId samples addressToFrameMap tab).stackTable.parentCol.length =
      (getProcessedThread threadId samples addressToFrameMap tab).stackTable.length := by
  have hinv : StackInv (samples.foldl sampleStep
      (addressToFrameMap.foldl frameMapStep (rootStateFrom tab))) :=
    samplesFold_inv samples _
      (framesFold_inv addressToFrameMap (rootStateFrom tab) (rootStateFrom_inv tab))
  rw [getProcessedThread_eq]
  simp only
  exact ⟨hinv.2.2.2.2.1, hinv.2.2.1, hinv.2.2.2.1, hinv.1⟩

/-- Witness for C3: the thread built from one sample with the two-frame
stack `[4, 5]`; its stack table is root (prefix null), a row with prefix 0,
and a row with prefix 1 — each prefix strictly below its row index. -/
theorem c3_stack_table_tree_witness :
    (getProcessedThread 3 [⟨100, 3, 0, [4, 5]⟩]
        [(4, ⟨"p:f", "f", some "p"⟩), (5, ⟨"q:g", "g", some "q"⟩)] []).stackTable.parentCol[0]? =
      some none ∧
    (1 : Nat) < 2 ∧ (0 : Nat) < 1 := by
  refine ⟨(c3_stack_table_tree 3 _ _ []).1, ?_, ?_⟩
  · exact (c3_stack_table_tree 3 [⟨100, 3, 0, [4, 5]⟩]
      [(4, ⟨"p:f", "f", some "p"⟩), (5, ⟨"q:g", "g", some "q"⟩)] []).2.1 2 1 (by decide)
  · exact (c3_stack_table_tree 3 [⟨100, 3, 0, [4, 5]⟩]
      [(4, ⟨"p:f", "f", some "p"⟩), (5, ⟨"q:g", "g", some "q"⟩)] []).2.1 1 0 (by decide)

end Profiler
